import Mathlib

/-!
Verification development for the symbolic bit-encoding engine (kernel/satgen.h)
and the path-sensitization miter builder (passes/cmds/sensitizepath.cc) of the
yosys fork under study.

The shallow embedding below translates the two source files into executable
Lean definitions.  Code of the repository that lives outside the two files
(the ezSAT boolean oracle, the RTLIL kernel helpers such as SigMap, NEW_ID,
escape_id, Module::addWire and friends) is modelled from the specification,
with a doc comment saying so on each such definition.
-/

set_option autoImplicit false

/-- Four-valued logic state of a constant signal bit (RTLIL::State, restricted
to the values the two source files handle: 0, 1, x, z). -/
inductive RState
  | S0
  | S1
  | Sx
  | Sz
deriving DecidableEq

/-- A wire of the hardware IR: a name and a bit width (kernel/rtlil.h;
only the fields satgen.h reads). -/
structure Wire where
  name : String
  width : Nat
deriving DecidableEq

/-- A signal bit: either a constant state or a bit offset into a wire
(RTLIL::SigBit). -/
inductive SigBit
  | const : RState → SigBit
  | bit : Wire → Nat → SigBit
deriving DecidableEq

/-- A signal specification is an ordered list of signal bits (the bitwise view
of RTLIL::SigSpec, which is how satgen.h iterates it). -/
abbrev SigSpec := List SigBit

/-- Association-list lookup used to model the std::map containers of the
source (first entry with the given key). -/
def alookup {α β : Type} [DecidableEq α] : List (α × β) → α → Option β
  | [], _ => none
  | (k, v) :: rest, a => if k = a then some v else alookup rest a

/-- Association-list insert-or-assign, modelling std::map operator[] followed
by assignment: an existing key keeps its position, a new key is appended. -/
def ainsert {α β : Type} [DecidableEq α] : List (α × β) → α → β → List (α × β)
  | [], a, b => [(a, b)]
  | (k, v) :: rest, a, b => if k = a then (a, b) :: rest else (k, v) :: ainsert rest a b

/-- Boolean formulas over literal identifiers.  Modelled from the spec: the
boolean-satisfiability oracle (libs/ezsat, outside src/) offers constants,
named and anonymous variables and the connectives AND/OR/NOT/IFF/ITE; an
`int` literal handle of ezSAT is modelled as a formula term.  Identifier 0 is
the constant-true literal (CONST_TRUE) and identifier 1 the constant-false
literal (CONST_FALSE). -/
inductive BF
  | tru
  | fls
  | var : Nat → BF
  | bnot : BF → BF
  | band : BF → BF → BF
  | bor : BF → BF → BF
  | biff : BF → BF → BF
  | bite : BF → BF → BF → BF
deriving DecidableEq

/-- Value of a literal identifier under an assignment: identifiers 0 and 1 are
the reserved constants, all others are free variables. -/
def evalVar (f : Nat → Bool) (n : Nat) : Bool :=
  if n = 0 then true else if n = 1 then false else f n

/-- Evaluation of a boolean formula under an assignment of the free literal
identifiers. -/
def BF.eval (f : Nat → Bool) : BF → Bool
  | tru => true
  | fls => false
  | var n => evalVar f n
  | bnot a => !(a.eval f)
  | band a b => a.eval f && b.eval f
  | bor a b => a.eval f || b.eval f
  | biff a b => a.eval f == b.eval f
  | bite c a b => if c.eval f then a.eval f else b.eval f

/-- State of the boolean oracle.  Modelled from the spec: the oracle allocates
anonymous fresh literals and named "frozen" literals (stable identity when the
same name is requested again) and accumulates hard constraints (`assume`).
Identifiers 0 and 1 are reserved for the true/false constants, so fresh
allocation starts at 2. -/
structure EzSAT where
  nextLit : Nat
  frozen : List (String × Nat)
  assumed : List BF

/-- Modelled from the spec: `ez->frozen_literal(name)` returns the literal
already frozen under `name`, or allocates a fresh literal and freezes it
under `name`. -/
def frozenNamed (e : EzSAT) (name : String) : Nat × EzSAT :=
  match alookup e.frozen name with
  | some l => (l, e)
  | none =>
    (e.nextLit, { e with nextLit := e.nextLit + 1, frozen := (name, e.nextLit) :: e.frozen })

/-- Modelled from the spec: `ez->frozen_literal()` without a name allocates a
fresh unconstrained literal (used to duplicate undefined constants). -/
def frozenAnon (e : EzSAT) : Nat × EzSAT :=
  (e.nextLit, { e with nextLit := e.nextLit + 1 })

/-- Modelled from the spec: `ez->assume(f)` records `f` as a hard constraint
of the formula under construction. -/
def ezAssume (e : EzSAT) (f : BF) : EzSAT :=
  { e with assumed := f :: e.assumed }

/-- The encoding-session state of `struct SatGen` (kernel/satgen.h): the
oracle, the signal canonicalizer (SigMap, external kernel code, modelled from
the spec as an arbitrary function on bits), the name prefix, the cache
of imported signals, the initial-state records and the undef-modeling
flag. -/
structure SatGen where
  ez : EzSAT
  sigmap : SigBit → SigBit
  pref : String
  imported_signals : List (String × List (SigBit × Nat))
  initstates : List ((String × Int) × Bool)
  ignore_div_by_zero : Bool
  model_undef : Bool

/-- Whether a string starts with the single marker character `c` (stated on
the character list so that concrete instances evaluate). -/
def startsWithChar (s : String) (c : Char) : Bool :=
  match s.data with
  | [] => false
  | c2 :: _ => c2 = c

/-- Modelled from the spec: `log_id` of the RTLIL kernel renders a name for
humans, stripping the leading backslash of public names. -/
def logId (s : String) : String :=
  match s.data with
  | c :: rest => if c = '\\' then { data := rest } else s
  | [] => s

/-- The human-readable stable name satgen.h derives for a wire-backed bit
(satgen.h line 102): the bare wire name for single-bit wires, otherwise the
wire name followed by the bit offset in brackets. -/
def bitName (w : Wire) (off : Nat) : String :=
  if w.width = 1 then logId w.name else logId w.name ++ " [" ++ toString off ++ "]"

/-- The timestep part of an import scope prefix (satgen.h line 112):
empty for timestep -1, `@<t>:` otherwise. -/
def tsName (ts : Int) : String :=
  if ts = -1 then "" else "@" ++ toString ts ++ ":"

/-- Lookup in the imported-signal cache: scope prefix, then bit. -/
def cacheLookup (c : List (String × List (SigBit × Nat))) (pf : String) (b : SigBit) :
    Option Nat :=
  match alookup c pf with
  | none => none
  | some inner => alookup inner b

/-- `imported_signals[pf][bit] = l` of the source: ensure the outer entry and
insert-or-assign the bit. -/
def cacheInsert (c : List (String × List (SigBit × Nat))) (pf : String) (b : SigBit)
    (l : Nat) : List (String × List (SigBit × Nat)) :=
  match alookup c pf with
  | none => c ++ [(pf, [(b, l)])]
  | some inner => ainsert c pf (ainsert inner b l)

/-- `imported_signals[pf]` of the source read on its own: std::map operator[]
default-constructs an empty inner map when the key is absent. -/
def cacheEnsure (c : List (String × List (SigBit × Nat))) (pf : String) :
    List (String × List (SigBit × Nat)) :=
  match alookup c pf with
  | none => c ++ [(pf, [])]
  | some _ => c

/-- One loop iteration of `SatGen::importSigSpecWorker` (satgen.h lines
95-105), for one (already canonicalized) bit: constants map to the reserved
true/false literals (with constant-x duplicated as a fresh literal in
duplicate-undef mode), wire bits get the frozen literal of their derived name
and are recorded in the cache. -/
def importBitW (pf : String) (undef_mode dup_undef : Bool) (g : SatGen) (b : SigBit) :
    Nat × SatGen :=
  match b with
  | .const st =>
    if g.model_undef && dup_undef && st = RState.Sx then
      let r := frozenAnon g.ez
      (r.1, { g with ez := r.2 })
    else
      ((if (if undef_mode then st = RState.Sx else st = RState.S1) then 0 else 1), g)
  | .bit w off =>
    let name := pf ++ bitName w off
    let r := frozenNamed g.ez name
    (r.1, { g with ez := r.2,
                   imported_signals := cacheInsert g.imported_signals pf (SigBit.bit w off) r.1 })

/-- The loop body of `SatGen::importSigSpecWorker` as a fold step:
accumulate the vector of literals while threading the session state. -/
def importStep (pf : String) (undef_mode dup_undef : Bool) (acc : List Nat × SatGen)
    (b : SigBit) : List Nat × SatGen :=
  (acc.1 ++ [(importBitW pf undef_mode dup_undef acc.2 b).1],
   (importBitW pf undef_mode dup_undef acc.2 b).2)

/-- `SatGen::importSigSpecWorker` (satgen.h lines 87-107): asserts that
undef-mode is only used when undef modeling is enabled, applies the
canonicalizer, and imports the bits in order. -/
def importSigSpecWorker (g : SatGen) (sig : SigSpec) (pf : String)
    (undef_mode dup_undef : Bool) : Option (List Nat × SatGen) :=
  if undef_mode && !g.model_undef then none
  else some ((sig.map g.sigmap).foldl (importStep pf undef_mode dup_undef) (([] : List Nat), g))

/-- `SatGen::importSigSpec` (satgen.h lines 109-114): timestep 0 is a fatal
contract violation. -/
def importSigSpec (g : SatGen) (sig : SigSpec) (ts : Int) : Option (List Nat × SatGen) :=
  if ts = 0 then none
  else importSigSpecWorker g sig (g.pref ++ tsName ts) false false

/-- `SatGen::importDefSigSpec` (satgen.h lines 116-121): the
duplicate-undef import variant. -/
def importDefSigSpec (g : SatGen) (sig : SigSpec) (ts : Int) : Option (List Nat × SatGen) :=
  if ts = 0 then none
  else importSigSpecWorker g sig (g.pref ++ tsName ts) false true

/-- `SatGen::importUndefSigSpec` (satgen.h lines 123-128): the undef-
flag import variant, with the distinct `undef:` name namespace. -/
def importUndefSigSpec (g : SatGen) (sig : SigSpec) (ts : Int) : Option (List Nat × SatGen) :=
  if ts = 0 then none
  else importSigSpecWorker g sig ("undef:" ++ g.pref ++ tsName ts) true false

/-- `SatGen::importSigBit` (satgen.h lines 130-135). -/
def importSigBit (g : SatGen) (b : SigBit) (ts : Int) : Option (Nat × SatGen) :=
  if ts = 0 then none
  else
    match importSigSpecWorker g [b] (g.pref ++ tsName ts) false false with
    | some (l :: _, g1) => some (l, g1)
    | _ => none

/-- `SatGen::importDefSigBit` (satgen.h lines 137-142). -/
def importDefSigBit (g : SatGen) (b : SigBit) (ts : Int) : Option (Nat × SatGen) :=
  if ts = 0 then none
  else
    match importSigSpecWorker g [b] (g.pref ++ tsName ts) false true with
    | some (l :: _, g1) => some (l, g1)
    | _ => none

/-- `SatGen::importUndefSigBit` (satgen.h lines 144-149). -/
def importUndefSigBit (g : SatGen) (b : SigBit) (ts : Int) : Option (Nat × SatGen) :=
  if ts = 0 then none
  else
    match importSigSpecWorker g [b] ("undef:" ++ g.pref ++ tsName ts) true false with
    | some (l :: _, g1) => some (l, g1)
    | _ => none

/-- `SatGen::importedSigBit` (satgen.h lines 151-156): queries the cache;
`imported_signals[pf]` default-constructs an empty inner map when the scope
key is absent, which is the only state the call touches. -/
def importedSigBit (g : SatGen) (b : SigBit) (ts : Int) : Option (Bool × SatGen) :=
  if ts = 0 then none
  else
    let pf := g.pref ++ tsName ts
    let inner := (alookup g.imported_signals pf).getD []
    some ((alookup inner b).isSome,
      { g with imported_signals := cacheEnsure g.imported_signals pf })

/-- The obligation formula shape of `SatGen::importPropertyCell` (satgen.h
lines 173-178): conjunction for covers, materialized implication for
assert/assume. -/
def mkProp (ctype : String) (check en : BF) : BF :=
  if ctype = "$cover" then BF.band check en else BF.bor (BF.bnot en) check

/-- A cell as satgen.h reads it: a type tag, the A (check) and EN (enable)
ports, and the optional signedness parameters (kernel/rtlil.h, restricted to
the fields the embedded functions read). -/
structure SCell where
  ctype : String
  portA : SigSpec
  portEN : SigSpec
  paramASigned : Option Bool
  paramBSigned : Option Bool

/-- `SatGen::importPropertyCell` (satgen.h lines 159-179): asserts the cell
kind and that check and enable are single bits, imports both as definitional
literals, conjoins each with the negation of its undef-flag when undef
modeling is on, and combines them per the cell kind. -/
def importPropertyCell (g : SatGen) (cell : SCell) (ts : Int) : Option (BF × SatGen) :=
  if ¬(cell.ctype = "$assert" ∨ cell.ctype = "$assume" ∨ cell.ctype = "$cover") then none
  else
    let check_sig := cell.portA.map g.sigmap
    let en_sig := cell.portEN.map g.sigmap
    if check_sig.length ≠ 1 then none
    else if en_sig.length ≠ 1 then none
    else
      match importDefSigSpec g check_sig ts with
      | none => none
      | some (vc, g1) =>
        match importDefSigSpec g1 en_sig ts with
        | none => none
        | some (ve, g2) =>
          let check0 : BF := BF.var (vc.headD 0)
          let en0 : BF := BF.var (ve.headD 0)
          if g.model_undef then
            match importUndefSigSpec g2 check_sig ts with
            | none => none
            | some (vuc, g3) =>
              match importUndefSigSpec g3 en_sig ts with
              | none => none
              | some (vue, g4) =>
                some (mkProp cell.ctype
                        (BF.band (BF.bnot (BF.var (vuc.headD 0))) check0)
                        (BF.band (BF.bnot (BF.var (vue.headD 0))) en0), g4)
          else some (mkProp cell.ctype check0 en0, g2)

/-- N-ary conjunction, modelling `ez->expression(ezSAT::OpAnd, ...)`
(empty conjunction is the true constant). -/
def bigAnd (l : List BF) : BF := l.foldr BF.band BF.tru

/-- The per-bit equality-with-undef formulas of `SatGen::signals_eq`
(satgen.h lines 197-200), over the four imported literal vectors. -/
def eqBits : List Nat → List Nat → List Nat → List Nat → List BF
  | a :: as, ua :: uas, b :: bs, ub :: ubs =>
    BF.band (BF.biff (BF.var ua) (BF.var ub))
        (BF.biff (BF.bor (BF.var a) (BF.var ua)) (BF.bor (BF.var b) (BF.var ub)))
      :: eqBits as uas bs ubs
  | _, _, _, _ => []

/-- Plain bitwise equality, modelling `ez->vec_eq` (the conjunction of
bitwise IFFs). -/
def vecEqVars (a b : List Nat) : BF :=
  bigAnd (List.zipWith (fun x y => BF.biff (BF.var x) (BF.var y)) a b)

/-- `SatGen::signals_eq` (satgen.h lines 181-202): a negative right timestep
is replaced by the left one, the operand lengths must agree, both operands
are imported, and the result is plain bitwise equality without undef
modeling, else the equality-with-undef conjunction. -/
def signals_eq (g : SatGen) (lhs rhs : SigSpec) (tsl tsr : Int) : Option (BF × SatGen) :=
  let tsr := if tsr < 0 then tsl else tsr
  if lhs.length ≠ rhs.length then none
  else
    match importSigSpec g lhs tsl with
    | none => none
    | some (vl, g1) =>
      match importSigSpec g1 rhs tsr with
      | none => none
      | some (vr, g2) =>
        if !g.model_undef then some (vecEqVars vl vr, g2)
        else
          match importUndefSigSpec g2 lhs tsl with
          | none => none
          | some (ul, g3) =>
            match importUndefSigSpec g3 rhs tsr with
            | none => none
            | some (ur, g4) => some (bigAnd (eqBits vl ul vr ur), g4)

/-- The padding loop of `SatGen::extendSignalWidth` (satgen.h lines 209-212):
while the vector is shorter than the target, push its last literal when the
operation is signed and the vector nonempty, else the constant-false
literal. -/
def extendLoop (isS : Bool) (v : List BF) (target : Nat) : List BF :=
  if v.length < target then
    extendLoop isS (v ++ [if isS ∧ 0 < v.length then v.getLastD BF.fls else BF.fls]) target
  else v
termination_by target - v.length
decreasing_by simp; omega

/-- `SatGen::extendSignalWidth` (satgen.h lines 204-213), two-operand form:
determines signedness from the cell parameters unless forced, then pads each
operand up to the other's length and the minimum output width. -/
def extendSignalWidth (va vb : List BF) (cell : SCell) (y_width : Nat)
    (forced_signed : Bool) : List BF × List BF :=
  let is_signed :=
    if !forced_signed ∧ cell.paramASigned.isSome ∧ cell.paramBSigned.isSome then
      cell.paramASigned.getD false && cell.paramBSigned.getD false
    else forced_signed
  let va2 := extendLoop is_signed va (max vb.length y_width)
  let vb2 := extendLoop is_signed vb (max va2.length y_width)
  (va2, vb2)

/-- Fresh anonymous literals, modelling the `ez->literal()` calls that fill a
short output vector (satgen.h lines 218-219 and 227-228). -/
def freshLits (e : EzSAT) : Nat → List Nat × EzSAT
  | 0 => ([], e)
  | n + 1 =>
    let r := freshLits { e with nextLit := e.nextLit + 1 } n
    (e.nextLit :: r.1, r.2)

/-- `SatGen::extendSignalWidth` (satgen.h lines 215-220), three-operand form:
align the operands, then append fresh literals to the output vector up to the
common width. -/
def extendSignalWidthY (e : EzSAT) (va vb vy : List BF) (cell : SCell)
    (forced_signed : Bool) : (List BF × List BF × List BF) × EzSAT :=
  let r := extendSignalWidth va vb cell vy.length forced_signed
  let f := freshLits e (r.1.length - vy.length)
  ((r.1, r.2, vy ++ f.1.map BF.var), f.2)

/-- `SatGen::extendSignalWidthUnary` (satgen.h lines 222-229): signedness
comes from the single operand (or is forced), the operand is padded to the
output length, and the output is padded with fresh literals to the operand
length. -/
def extendSignalWidthUnary (e : EzSAT) (va vy : List BF) (cell : SCell)
    (forced_signed : Bool) : (List BF × List BF) × EzSAT :=
  let is_signed := forced_signed || (cell.paramASigned.isSome && cell.paramASigned.getD false)
  let va2 := extendLoop is_signed va vy.length
  let f := freshLits e (va2.length - vy.length)
  ((va2, vy ++ f.1.map BF.var), f.2)

/-- Bitwise IFF of two literal vectors, modelling `ez->vec_iff`. -/
def vecIff (a b : List BF) : List BF := List.zipWith BF.biff a b

/-- Bitwise OR of two literal vectors, modelling `ez->vec_or`. -/
def vecOr (a b : List BF) : List BF := List.zipWith BF.bor a b

/-- Bitwise NOT of a literal vector, modelling `ez->vec_not`. -/
def vecNot (a : List BF) : List BF := a.map BF.bnot

/-- Bitwise ITE on a shared condition, modelling `ez->vec_ite(s, b, a)`. -/
def vecIte (s : BF) (b a : List BF) : List BF := List.zipWith (BF.bite s) b a

/-- `SatGen::undefGating` on vectors (satgen.h lines 231-243): asserts undef
modeling and equal value-vector lengths; value vectors longer than the
indicator are truncated to its length, shorter ones are a fatal assertion;
then the conjunction of (indicator OR values-agree) is assumed as a hard
constraint. -/
def undefGating (g : SatGen) (vec_y vec_yy vec_undef : List BF) : Option SatGen :=
  if !g.model_undef then none
  else if vec_y.length ≠ vec_yy.length then none
  else if vec_undef.length < vec_y.length then
    some { g with ez := ezAssume g.ez (bigAnd (vecOr vec_undef
      (vecIff (vec_y.take vec_undef.length) (vec_yy.take vec_undef.length)))) }
  else if vec_y.length ≠ vec_undef.length then none
  else some { g with ez := ezAssume g.ez (bigAnd (vecOr vec_undef (vecIff vec_y vec_yy))) }

/-- `SatGen::undefGating` on single bits (satgen.h lines 257-260). -/
def undefGatingBit (g : SatGen) (y yy undef : BF) : SatGen :=
  { g with ez := ezAssume g.ez (BF.bor undef (BF.biff y yy)) }

/-- `SatGen::mux` (satgen.h lines 245-255): the value result is the bitwise
if-then-else on the select; with undef modeling, the undef result is, under
an undefined select, the positions where the operands differ in value or
carry an undef-flag, and otherwise the undef-flags of the selected
operand. -/
def mux (model_undef : Bool) (s undef_s : BF) (a undef_a b undef_b : List BF) :
    List BF × List BF :=
  let res := vecIte s b a
  let undef_res :=
    if model_undef then
      let unequal_ab := vecNot (vecIff a b)
      let undef_ab := vecOr unequal_ab (vecOr undef_a undef_b)
      vecIte undef_s undef_ab (vecIte s undef_b undef_a)
    else []
  (res, undef_res)

/-- A wire as sensitizepath.cc reads it: name, width and port direction flags
(kernel/rtlil.h, restricted to the read fields). -/
structure SWire where
  name : String
  width : Nat
  port_input : Bool
  port_output : Bool
deriving DecidableEq

/-- A chunk of a signal specification (RTLIL::SigChunk): either a slice of a
wire (identified by name) or a list of constant states.  sensitizepath.cc
iterates signals chunk-wise. -/
inductive SChunk
  | wireC : String → Nat → Nat → SChunk
  | constC : List RState → SChunk
deriving DecidableEq

/-- The chunk view of a signal specification used by sensitizepath.cc. -/
abbrev SigSpecC := List SChunk

/-- A single bit of a chunked signal: a wire bit (name, offset) or a constant
state.  Used to state bitwise properties of the chunk-level functions. -/
inductive SigBitC
  | wb : String → Nat → SigBitC
  | cb : RState → SigBitC
deriving DecidableEq

/-- The bits of one chunk, in order. -/
def chunkBits : SChunk → List SigBitC
  | .wireC n off w => (List.range w).map (fun i => SigBitC.wb n (off + i))
  | .constC data => data.map SigBitC.cb

/-- The bits of a chunked signal, in order. -/
def sigBitsC (s : SigSpecC) : List SigBitC := s.flatMap chunkBits

/-- A cell as sensitizepath.cc manipulates it: name, type tag and named port
connections (kernel/rtlil.h, restricted to the read fields). -/
structure MCell where
  name : String
  ctype : String
  conns : List (String × SigSpecC)
deriving DecidableEq

/-- A module of the hardware IR as sensitizepath.cc reads and builds it:
wires, cells, direct connections, and counts of not-yet-lowered memories and
processes (only their presence matters). -/
structure SModule where
  name : String
  wires : List SWire
  cells : List MCell
  conns : List (SigSpecC × SigSpecC)
  nMemories : Nat
  nProcesses : Nat
deriving DecidableEq

/-- `cell->getPort(name)` of the kernel: the connection stored under the port
name (empty signal when absent). -/
def getPort (c : MCell) (p : String) : SigSpecC := (alookup c.conns p).getD []

/-- `cell->setPort(name, sig)` of the kernel: insert-or-assign the port. -/
def setPort (c : MCell) (p : String) (s : SigSpecC) : MCell :=
  { c with conns := ainsert c.conns p s }

/-- Modelled from the spec: `IdString::isPublic` of the RTLIL kernel — a name
is public when it starts with the backslash marker, auto-generated names
start with a dollar sign instead. -/
def isPublic (n : String) : Bool := startsWithChar n '\\'

/-- Modelled from the spec: the signal canonicalizer (SigMap, kernel code
outside src/) maps every bit to its canonical driven equivalent; on a module
whose direct-connection list induces no aliasing it is the identity, which is
how it is modelled here. -/
def sigmapM (s : SigSpecC) : SigSpecC := s

/-- `SensitizePathWorker::label_b` (sensitizepath.cc line 78). -/
def label_b (name : String) : String := name ++ "__b"

/-- `SensitizePathWorker::label_x` (sensitizepath.cc line 79). -/
def label_x (name : String) : String := name ++ "__is_x"

/-- The mutable state of `SensitizePathWorker` during `run`: the miter module
under construction, the original-to-shadow wire map, the accumulated (not yet
committed) connections, the candidate undriven wire bits, and the fresh-name
counter backing NEW_ID. -/
structure WSt where
  miter : SModule
  wire_map : List (String × String)
  new_conns : List (SigSpecC × SigSpecC)
  undriven : List (String × Nat)
  fresh : Nat
deriving DecidableEq

/-- Modelled from the spec: the kernel's NEW_ID macro yields a fresh
auto-generated (dollar-prefixed) name; modelled with the worker's counter. -/
def newId (st : WSt) : String × WSt :=
  ("$auto$" ++ toString st.fresh, { st with fresh := st.fresh + 1 })

/-- Modelled from the spec: `module->addWire` appends a wire to the module. -/
def addWireW (st : WSt) (w : SWire) : WSt :=
  { st with miter := { st.miter with wires := st.miter.wires ++ [w] } }

/-- Modelled from the spec: `module->addCell` appends a cell to the module. -/
def addCellW (st : WSt) (c : MCell) : WSt :=
  { st with miter := { st.miter with cells := st.miter.cells ++ [c] } }

/-- Modelled from the spec: `module->remove(cell)` removes the cell (cell
names are unique within a module). -/
def removeCellW (st : WSt) (cname : String) : WSt :=
  { st with miter := { st.miter with cells := st.miter.cells.filter (fun c => c.name ≠ cname) } }

/-- Update one port of the named cell in place, modelling `cell->setPort` on
a cell owned by the miter. -/
def updateCellPort (m : SModule) (cname p : String) (s : SigSpecC) : SModule :=
  { m with cells := m.cells.map (fun c => if c.name = cname then setPort c p s else c) }

/-- `SensitizePathWorker::connect` (sensitizepath.cc line 81): accumulate a
connection for the final commit. -/
def connectW (st : WSt) (a b : SigSpecC) : WSt :=
  { st with new_conns := st.new_conns ++ [(a, b)] }

/-- The full-wire signal of a wire. -/
def wireSig (w : SWire) : SigSpecC := [SChunk.wireC w.name 0 w.width]

/-- Modelled from the spec: `module->Anyseq(NEW_ID, width)` creates a fresh
internal wire of the given width driven by a new `$anyseq`
nondeterministic-source cell, and returns that wire's signal. -/
def anyseqW (st : WSt) (width : Nat) : SigSpecC × WSt :=
  let r1 := newId st
  let w : SWire := { name := r1.1, width := width, port_input := false, port_output := false }
  let st1 := addWireW r1.2 w
  let r2 := newId st1
  let st2 := addCellW r2.2 { name := r2.1, ctype := "$anyseq", conns := [("Y", wireSig w)] }
  (wireSig w, st2)

/-- Modelled from the spec: `module->Nex(NEW_ID, a, b)` / `module->Eqx`
create a fresh single-bit output wire and a `$nex`/`$eqx` comparison cell,
returning the output signal. -/
def cmpGateW (st : WSt) (ctype : String) (a b : SigSpecC) : SigSpecC × WSt :=
  let r1 := newId st
  let w : SWire := { name := r1.1, width := 1, port_input := false, port_output := false }
  let st1 := addWireW r1.2 w
  let r2 := newId st1
  let st2 := addCellW r2.2
    { name := r2.1, ctype := ctype, conns := [("A", a), ("B", b), ("Y", wireSig w)] }
  (wireSig w, st2)

/-- `SensitizePathWorker::rewrite_sigspec` (sensitizepath.cc lines 93-103):
map every wire chunk to its shadow-copy wire. -/
def rewrite_sigspec (st : WSt) (sig : SigSpecC) : SigSpecC :=
  sig.map (fun ch =>
    match ch with
    | .wireC n off w => SChunk.wireC ((alookup st.wire_map n).getD n) off w
    | .constC d => SChunk.constC d)

/-- Flush a pending run of undefined constant bits (sensitizepath.cc lines
126-131 and 137-141): a positive run length becomes one shared `$anyseq`
signal appended to both outputs. -/
def constrainFlush (st : WSt) (xlen : Nat) (sa sb : SigSpecC) :
    (SigSpecC × SigSpecC) × WSt :=
  if xlen = 0 then ((sa, sb), st)
  else
    let r := anyseqW st xlen
    ((sa ++ r.1, sb ++ r.1), r.2)

/-- The constant-chunk loop of `rewrite_sigspec_constrain` (sensitizepath.cc
lines 119-141): accumulate maximal runs of undefined bits, flush each run as
one shared nondeterministic source, and copy other constant bits to both
outputs. -/
def constrainData (st : WSt) (data : List RState) (xlen : Nat) (sa sb : SigSpecC) :
    (SigSpecC × SigSpecC) × WSt :=
  match data with
  | [] => constrainFlush st xlen sa sb
  | bit :: rest =>
    if bit = RState.Sx then constrainData st rest (xlen + 1) sa sb
    else
      let r := constrainFlush st xlen sa sb
      constrainData r.2 rest 0 (r.1.1 ++ [SChunk.constC [bit]]) (r.1.2 ++ [SChunk.constC [bit]])

/-- One chunk of the constrain-rewrite loop (sensitizepath.cc lines
111-142): a wire chunk goes to the original and shadow wires, a constant
chunk through the undefined-run replacement. -/
def constrainStep (acc : (SigSpecC × SigSpecC) × WSt) (ch : SChunk) :
    (SigSpecC × SigSpecC) × WSt :=
  match ch with
  | .wireC n off w =>
    ((acc.1.1 ++ [SChunk.wireC n off w],
      acc.1.2 ++ [SChunk.wireC ((alookup acc.2.wire_map n).getD n) off w]), acc.2)
  | .constC data => constrainData acc.2 data 0 acc.1.1 acc.1.2

/-- `SensitizePathWorker::rewrite_sigspec_constrain` (sensitizepath.cc lines
105-146): wire chunks go to the original and shadow wires respectively, and
each maximal run of undefined constant bits inside a constant chunk is
replaced by one shared nondeterministic source in both outputs. -/
def rewrite_sigspec_constrain (st : WSt) (sig : SigSpecC) :
    (SigSpecC × SigSpecC) × WSt :=
  sig.foldl constrainStep ((([] : SigSpecC), ([] : SigSpecC)), st)

/-- `SigSpec::is_fully_undef` of the kernel: every chunk is constant data all
of whose bits are undefined. -/
def is_fully_undef (s : SigSpecC) : Bool :=
  s.all (fun ch =>
    match ch with
    | .constC d => d.all (fun b => b = RState.Sx)
    | .wireC _ _ _ => false)

/-- `SensitizePathWorker::convert_x_equality` (sensitizepath.cc lines
148-175): when exactly one side of a `$eqx`/`$nex` cell is fully undefined,
replace it by a cross-copy comparison gate of the other side against its
shadow copy (with inverted polarity for `$eqx`), drive the old output from
the gate in both paths, and remove the original cell. -/
def convert_x_equality (st : WSt) (cell : MCell) : WSt :=
  let sig_a := sigmapM (getPort cell "A")
  let sig_b := sigmapM (getPort cell "B")
  let sides :=
    if is_fully_undef sig_a then some (rewrite_sigspec st sig_b, sig_b)
    else if is_fully_undef sig_b then some (sig_a, rewrite_sigspec st sig_a)
    else none
  match sides with
  | none => st
  | some (sa2, sb2) =>
    let r := cmpGateW st (if cell.ctype = "$eqx" then "$nex" else "$eqx") sa2 sb2
    let sig_y := getPort cell "Y"
    let st1 := connectW r.2 sig_y r.1
    let st2 := connectW st1 (rewrite_sigspec st1 sig_y) r.1
    removeCellW st2 cell.name

/-- `SensitizePathWorker::add_x_wire` (sensitizepath.cc lines 177-185): for a
public wire, add a divergence-detector wire constrained by a `$nex` gate
between the original and shadow wires. -/
def add_x_wire (st : WSt) (wa wb : SWire) : WSt :=
  if ¬ isPublic wa.name then st
  else
    let wx : SWire := { name := label_x wa.name, width := wb.width,
                        port_input := false, port_output := false }
    let st1 := addWireW st wx
    let r := newId st1
    let st2 := addCellW r.2
      { name := r.1, ctype := "$nex",
        conns := [("A", wireSig wa), ("B", wireSig wb), ("Y", wireSig wx)] }
    st2

/-- SigPool::add of the kernel on a wire: record all its bits. -/
def poolAddWire (p : List (String × Nat)) (w : SWire) : List (String × Nat) :=
  p ++ ((List.range w.width).map (fun i => (w.name, i))).filter (fun b => ¬ p.contains b)

/-- SigPool::del of the kernel on a signal: drop all its wire bits. -/
def poolDelSig (p : List (String × Nat)) (s : SigSpecC) : List (String × Nat) :=
  p.filter (fun b => ¬ (sigBitsC s).contains (SigBitC.wb b.1 b.2))

/-- Modelled from the spec: cell-type metadata of the kernel (celltypes.h,
outside src/) — whether a type is known and whether a port is an output; all
cell types appearing in this development drive port Y. -/
def cellKnown (ctype : String) : Bool :=
  ["$eqx", "$nex", "$eq", "$ne", "$anyseq", "$anyconst", "$allseq", "$allconst",
   "$assert", "$assume", "$cover", "$live", "$not", "$and", "$or", "$xor",
   "$add", "$sub", "$mux"].contains ctype

/-- Modelled from the spec: the output port of the known cell types used
here is Y. -/
def cellOutput (p : String) : Bool := p = "Y"

/-- The candidate-undriven bookkeeping of the cell loop (sensitizepath.cc
lines 226-231): any connection of an output port (or of any port of an
unknown cell type) is removed from the undriven set. -/
def delDriven (cell : MCell) (p : List (String × Nat)) : List (String × Nat) :=
  cell.conns.foldl
    (fun acc c =>
      if !cellKnown cell.ctype || cellOutput c.1 then poolDelSig acc (sigmapM c.2) else acc)
    p

/-- One port rewrite of the copy branch in constrain-undef mode
(sensitizepath.cc lines 255-258): rewrite the connection with shared
nondeterministic sources for undefined runs, storing the first component on
the original cell and the second on the shadow cell. -/
def copyStepCA (cname bname : String) (acc : WSt) (pc : String × SigSpecC) : WSt :=
  let r := rewrite_sigspec_constrain acc pc.2
  let acc1 := { r.2 with miter := updateCellPort r.2.miter cname pc.1 r.1.1 }
  { acc1 with miter := updateCellPort acc1.miter bname pc.1 r.1.2 }

/-- One port rewrite of the copy branch in normal mode (sensitizepath.cc
lines 259-260): point the shadow cell's connection at the shadow wires. -/
def copyStepPlain (bname : String) (acc : WSt) (pc : String × SigSpecC) : WSt :=
  { acc with miter := updateCellPort acc.miter bname pc.1 (rewrite_sigspec acc pc.2) }

/-- The copy branch of the cell loop (sensitizepath.cc lines 252-261): clone
the cell under the shadow label and rewrite every connection — plainly in
normal mode, and with shared nondeterministic sources for undefined constant
runs (rewriting the original cell too) in constrain-undef mode. -/
def copyCell (optCA : Bool) (st : WSt) (cell : MCell) : WSt :=
  let cell_b : MCell := { name := label_b cell.name, ctype := cell.ctype, conns := cell.conns }
  let st1 := addCellW st cell_b
  if optCA then cell_b.conns.foldl (copyStepCA cell.name cell_b.name) st1
  else cell_b.conns.foldl (copyStepPlain cell_b.name) st1

/-- One iteration of the wire loop of `SensitizePathWorker::run`
(sensitizepath.cc lines 199-223). -/
def processWire (optCI optCA : Bool) (st : WSt) (wire : SWire) : WSt :=
  let r := newId st
  let wire_b : SWire := { name := r.1, width := wire.width,
                          port_input := false, port_output := false }
  let st1 := addWireW r.2 wire_b
  let st2 := { st1 with wire_map := ainsert st1.wire_map wire.name wire_b.name }
  let st3 := add_x_wire st2 wire wire_b
  if optCA then { st3 with undriven := poolAddWire st3.undriven wire }
  else if wire.port_input then
    if optCI then connectW st3 (wireSig wire_b) (wireSig wire)
    else
      let ra := anyseqW st3 wire_b.width
      connectW ra.2 (wireSig wire_b) ra.1
  else st3

/-- One iteration of the cell loop of `SensitizePathWorker::run`
(sensitizepath.cc lines 225-262). -/
def processCell (optCA : Bool) (st : WSt) (cell : MCell) : WSt :=
  let st0 := if optCA then { st with undriven := delDriven cell st.undriven } else st
  if cell.ctype = "$assert" ∨ cell.ctype = "$live" ∨ cell.ctype = "$cover" then st0
  else if cell.ctype = "$anyseq" ∨ cell.ctype = "$anyconst" ∨
          cell.ctype = "$allseq" ∨ cell.ctype = "$allconst" then
    let sig := getPort cell "Y"
    connectW st0 (rewrite_sigspec st0 sig) sig
  else if ¬ optCA ∧ (cell.ctype = "$eqx" ∨ cell.ctype = "$nex") then
    convert_x_equality st0 cell
  else copyCell optCA st0 cell

/-- One iteration of the connection loop of `SensitizePathWorker::run`
(sensitizepath.cc lines 264-273). -/
def processConn (optCA : Bool) (st : WSt) (conn : SigSpecC × SigSpecC) : WSt :=
  if optCA then
    let r := rewrite_sigspec_constrain st conn.2
    let st1 := connectW r.2 conn.1 r.1.1
    connectW st1 (rewrite_sigspec st1 conn.1) r.1.2
  else
    let st1 := connectW st conn.1 conn.2
    connectW st1 (rewrite_sigspec st1 conn.1) (rewrite_sigspec st1 conn.2)

/-- Modelled from the spec: SigPool::export_all returns the pooled bits as
maximal chunks; modelled by grouping runs of consecutive offsets of the same
wire in pool order. -/
def exportChunks : List (String × Nat) → List (String × Nat × Nat)
  | [] => []
  | b :: rest =>
    match exportChunks rest with
    | [] => [(b.1, b.2, 1)]
    | c :: cs =>
      if c.1 = b.1 ∧ c.2.1 = b.2 + 1 then (b.1, b.2, c.2.2 + 1) :: cs
      else (b.1, b.2, 1) :: c :: cs

/-- One iteration of the constrain-undriven loop of `SensitizePathWorker::run`
(sensitizepath.cc lines 279-292): an undriven input's shadow chunk is tied to
the original, any other undriven chunk is driven in both copies from one
shared nondeterministic source. -/
def processUndriven (st : WSt) (ch : String × Nat × Nat) : WSt :=
  let wa := (st.miter.wires.find? (fun w => w.name == ch.1)).getD
    { name := ch.1, width := 0, port_input := false, port_output := false }
  let chunk_a : SigSpecC := [SChunk.wireC ch.1 ch.2.1 ch.2.2]
  let chunk_b : SigSpecC := [SChunk.wireC ((alookup st.wire_map ch.1).getD ch.1) ch.2.1 ch.2.2]
  if wa.port_input then connectW st chunk_b chunk_a
  else
    let r := anyseqW st ch.2.2
    let st1 := connectW r.2 chunk_a r.1
    connectW st1 chunk_b r.1

/-- `SensitizePathWorker::run` (sensitizepath.cc lines 187-296): clone the
source into the miter, instrument every wire, process every original cell and
connection, optionally constrain the surviving undriven chunks, and commit
the accumulated connections in one batch. -/
def runWorker (src : SModule) (miterName : String) (optCI optCA : Bool) : WSt :=
  let st0 : WSt := { miter := { src with name := miterName }, wire_map := [],
                     new_conns := [], undriven := [], fresh := 0 }
  let wires := st0.miter.wires
  let cells := st0.miter.cells
  let conns := st0.miter.conns
  let st1 := wires.foldl (processWire optCI optCA) st0
  let st2 := cells.foldl (processCell optCA) st1
  let st3 := conns.foldl (processConn optCA) st2
  let st4 := if optCA then (exportChunks st3.undriven).foldl processUndriven st3 else st3
  { st4 with miter := { st4.miter with conns := st4.new_conns } }

/-- Modelled from the spec: `RTLIL::escape_id` prepends the public-name
marker to a name that carries no marker yet. -/
def escape_id (s : String) : String :=
  if s = "" then s
  else if startsWithChar s '\\' || startsWithChar s '$' then s
  else "\\" ++ s

/-- `SensitizePath::execute` after option parsing (sensitizepath.cc lines
343-367): resolve the two module names, fail on a missing source, an existing
destination, or unlowered memories/processes in the source, and otherwise add
exactly the one new miter module built by the worker. -/
def executeSP (design : List SModule) (optCI optCA : Bool) (srcName dstName : String) :
    Except String (List SModule) :=
  match design.find? (fun m => m.name == escape_id srcName) with
  | none => Except.error ("Can't find source module " ++ srcName ++ ".")
  | some src =>
    if (design.find? (fun m => m.name == escape_id dstName)).isSome then
      Except.error ("Miter module " ++ dstName ++ " already exists.")
    else if src.nMemories ≠ 0 ∨ src.nProcesses ≠ 0 then
      Except.error "Source module contains memories or processes. Run memory or proc respectively."
    else Except.ok (design ++ [(runWorker src (escape_id dstName) optCI optCA).miter])

/-! Helper lemmas about the padding loop. -/

theorem extendLoop_pad_eq (isS : Bool) (v : List BF) :
    (if isS ∧ 0 < v.length then v.getLastD BF.fls else BF.fls) =
      (if isS then v.getLastD BF.fls else BF.fls) := by
  cases isS with
  | false => simp
  | true =>
    cases v with
    | nil => simp
    | cons x xs => simp

theorem extendLoop_eq (isS : Bool) (v : List BF) (t : Nat) :
    extendLoop isS v t =
      v ++ List.replicate (t - v.length) (if isS then v.getLastD BF.fls else BF.fls) := by
  generalize hk : t - v.length = k
  induction k generalizing v with
  | zero =>
    rw [extendLoop]
    have : ¬ v.length < t := by omega
    simp [this]
  | succ n ih =>
    rw [extendLoop]
    have hlt : v.length < t := by omega
    rw [if_pos hlt, extendLoop_pad_eq]
    rw [ih (v ++ [if isS then v.getLastD BF.fls else BF.fls]) (by simp; omega)]
    have hlast : (if isS then (v ++ [if isS then v.getLastD BF.fls else BF.fls]).getLastD BF.fls
        else BF.fls) = (if isS then v.getLastD BF.fls else BF.fls) := by
      cases isS <;> simp
    rw [hlast, List.append_assoc]
    simp [List.replicate_succ]

theorem extendLoop_length (isS : Bool) (v : List BF) (t : Nat) :
    (extendLoop isS v t).length = max v.length t := by
  rw [extendLoop_eq]
  simp
  omega

theorem extendSignalWidth_signed_eq (cell : SCell) (forced : Bool) :
    (if !forced ∧ cell.paramASigned.isSome ∧ cell.paramBSigned.isSome then
        cell.paramASigned.getD false && cell.paramBSigned.getD false
      else forced) =
      (if forced = true ∨ (cell.paramASigned = some true ∧ cell.paramBSigned = some true)
        then true else false) := by
  cases forced with
  | true => simp
  | false =>
    cases hA : cell.paramASigned with
    | none => simp [hA]
    | some a =>
      cases hB : cell.paramBSigned with
      | none => simp [hA, hB]
      | some b => cases a <;> cases b <;> simp [hA, hB]

/-- Closed form of the two-operand width/sign normalizer. -/
theorem extendSignalWidth_closed :
    ∀ (va vb : List BF) (cell : SCell) (yw : Nat) (forced : Bool),
      extendSignalWidth va vb cell yw forced =
        (va ++ List.replicate (max vb.length yw - va.length)
            (if forced = true ∨ (cell.paramASigned = some true ∧ cell.paramBSigned = some true)
              then va.getLastD BF.fls else BF.fls),
         vb ++ List.replicate (max (max va.length (max vb.length yw)) yw - vb.length)
            (if forced = true ∨ (cell.paramASigned = some true ∧ cell.paramBSigned = some true)
              then vb.getLastD BF.fls else BF.fls)) := by
  intro va vb cell yw forced
  unfold extendSignalWidth
  rw [extendSignalWidth_signed_eq]
  cases h : (if forced = true ∨ (cell.paramASigned = some true ∧ cell.paramBSigned = some true)
      then true else false) with
  | false =>
    simp only [extendLoop_eq, extendLoop_length]
    have h2 : (forced = true ∨ (cell.paramASigned = some true ∧
        cell.paramBSigned = some true)) → False := by
      intro hc
      simp [hc] at h
    simp only [if_neg h2]
    simp
    omega
  | true =>
    simp only [extendLoop_eq, extendLoop_length]
    have h2 : forced = true ∨ (cell.paramASigned = some true ∧ cell.paramBSigned = some true) := by
      by_contra hc
      simp [hc] at h
    simp only [if_pos h2]
    simp
    omega

/-- Closed form of the unary width/sign normalizer (operand component). -/
theorem extendSignalWidthUnary_closed :
    ∀ (e : EzSAT) (va vy : List BF) (cell : SCell) (forced : Bool),
      (extendSignalWidthUnary e va vy cell forced).1.1 =
        va ++ List.replicate (vy.length - va.length)
          (if forced = true ∨ cell.paramASigned = some true
            then va.getLastD BF.fls else BF.fls) := by
  intro e va vy cell forced
  unfold extendSignalWidthUnary
  have hs : (forced || (cell.paramASigned.isSome && cell.paramASigned.getD false)) =
      (if forced = true ∨ cell.paramASigned = some true then true else false) := by
    cases forced with
    | true => simp
    | false =>
      cases hA : cell.paramASigned with
      | none => simp [hA]
      | some a => cases a <;> simp [hA]
  simp only [hs]
  cases h : (if forced = true ∨ cell.paramASigned = some true then true else false) with
  | false =>
    simp only [extendLoop_eq]
    have h2 : (forced = true ∨ cell.paramASigned = some true) → False := by
      intro hc
      simp [hc] at h
    simp only [if_neg h2]
    simp
  | true =>
    simp only [extendLoop_eq]
    have h2 : forced = true ∨ cell.paramASigned = some true := by
      by_contra hc
      simp [hc] at h
    simp only [if_pos h2]
    simp

/-- C7: the width/sign normalizer pads the shorter operand up to the longer
one's length and the optional minimum output width, repeating the
most-significant literal when the operation is signed (both operands declare
signedness, or the caller forces it; the single operand's signedness in the
unary case) and the vector is nonempty, else appending the constant-false
literal; and the 4-bit signed operand 1100 normalized against a 2-bit operand
to width 6 yields 111100. -/
theorem extendSignalWidth_spec :
    (∀ (va vb : List BF) (cell : SCell) (yw : Nat) (forced : Bool),
      extendSignalWidth va vb cell yw forced =
        (va ++ List.replicate (max vb.length yw - va.length)
            (if forced = true ∨ (cell.paramASigned = some true ∧ cell.paramBSigned = some true)
              then va.getLastD BF.fls else BF.fls),
         vb ++ List.replicate (max (max va.length (max vb.length yw)) yw - vb.length)
            (if forced = true ∨ (cell.paramASigned = some true ∧ cell.paramBSigned = some true)
              then vb.getLastD BF.fls else BF.fls))) ∧
    (∀ (e : EzSAT) (va vy : List BF) (cell : SCell) (forced : Bool),
      (extendSignalWidthUnary e va vy cell forced).1.1 =
        va ++ List.replicate (vy.length - va.length)
          (if forced = true ∨ cell.paramASigned = some true
            then va.getLastD BF.fls else BF.fls)) ∧
    (extendSignalWidth [BF.fls, BF.fls, BF.tru, BF.tru] [BF.var 9, BF.var 10]
        { ctype := "$add", portA := [], portEN := [],
          paramASigned := some true, paramBSigned := some true } 6 false).1 =
      [BF.fls, BF.fls, BF.tru, BF.tru, BF.tru, BF.tru] := by
  refine ⟨extendSignalWidth_closed, extendSignalWidthUnary_closed, ?_⟩
  rw [extendSignalWidth_closed]
  decide

/-! Helper lemmas about association lists and the imported-signal cache. -/

theorem alookup_append {α β : Type} [DecidableEq α] (l1 l2 : List (α × β)) (a : α) :
    alookup (l1 ++ l2) a =
      (match alookup l1 a with
       | some v => some v
       | none => alookup l2 a) := by
  induction l1 with
  | nil => simp [alookup]
  | cons p rest ih =>
    by_cases h : p.1 = a
    · simp [alookup, h]
    · simp [alookup, h, ih]

theorem cacheEnsure_lookup (c : List (String × List (SigBit × Nat))) (pf pf2 : String)
    (b2 : SigBit) : cacheLookup (cacheEnsure c pf) pf2 b2 = cacheLookup c pf2 b2 := by
  unfold cacheEnsure
  cases h : alookup c pf with
  | some inner => rfl
  | none =>
    unfold cacheLookup
    rw [alookup_append]
    cases h2 : alookup c pf2 with
    | some inner => simp
    | none =>
      simp only [alookup]
      by_cases he : pf = pf2
      · subst he
        simp [alookup]
      · simp [he]

/-- C5: `importedSigBit` is a pure lookup — it returns whether the bit has a
cached literal under the queried scope and leaves every cache association,
the oracle state and all other session fields unchanged. -/
theorem importedSigBit_pure (g : SatGen) (b : SigBit) (ts : Int) (hts : ts ≠ 0) :
    ∃ r g2, importedSigBit g b ts = some (r, g2) ∧
      r = (cacheLookup g.imported_signals (g.pref ++ tsName ts) b).isSome ∧
      (∀ pf2 b2, cacheLookup g2.imported_signals pf2 b2 =
          cacheLookup g.imported_signals pf2 b2) ∧
      g2.ez = g.ez ∧ g2.sigmap = g.sigmap ∧ g2.pref = g.pref ∧
      g2.initstates = g.initstates ∧ g2.model_undef = g.model_undef := by
  unfold importedSigBit
  rw [if_neg hts]
  refine ⟨_, _, rfl, ?_, ?_, rfl, rfl, rfl, rfl, rfl⟩
  · unfold cacheLookup
    cases h : alookup g.imported_signals (g.pref ++ tsName ts) <;> simp [h, alookup]
  · intro pf2 b2
    exact cacheEnsure_lookup g.imported_signals (g.pref ++ tsName ts) pf2 b2

/-- A fresh encoding session over the identity canonicalizer, used as a
concrete session state by the witnesses below. -/
def g0 : SatGen :=
  { ez := { nextLit := 2, frozen := [], assumed := [] }, sigmap := id, pref := "",
    imported_signals := [], initstates := [], ignore_div_by_zero := false,
    model_undef := false }

/-- The same fresh session with undef modeling enabled. -/
def gU : SatGen := { g0 with model_undef := true }

/-- A one-bit wire and its bit, used by the witnesses below. -/
def wA : Wire := { name := "\\a", width := 1 }

/-- The single bit of `wA`. -/
def bitA : SigBit := SigBit.bit wA 0

/-- Witness for C5 at a concrete session, bit and timestep. -/
theorem importedSigBit_pure_witness :
    (-1 : Int) ≠ 0 ∧
    (∃ r g2, importedSigBit g0 bitA (-1) = some (r, g2) ∧
      r = (cacheLookup g0.imported_signals (g0.pref ++ tsName (-1)) bitA).isSome ∧
      (∀ pf2 b2, cacheLookup g2.imported_signals pf2 b2 =
          cacheLookup g0.imported_signals pf2 b2) ∧
      g2.ez = g0.ez ∧ g2.sigmap = g0.sigmap ∧ g2.pref = g0.pref ∧
      g2.initstates = g0.initstates ∧ g2.model_undef = g0.model_undef) :=
  ⟨by decide, importedSigBit_pure g0 bitA (-1) (by decide)⟩

/-! Semantics of the undef-gating constraint. -/

theorem gating_sem (u y yy : List BF) (hyy : y.length = yy.length)
    (hu : u.length = y.length) (f : Nat → Bool) :
    ((bigAnd (vecOr u (vecIff y yy))).eval f = true ↔
      ∀ i, i < u.length → (u.getD i BF.fls).eval f = false →
        (y.getD i BF.fls).eval f = (yy.getD i BF.fls).eval f) := by
  induction u generalizing y yy with
  | nil =>
    simp [bigAnd, vecOr, vecIff, BF.eval]
  | cons u0 us ih =>
    cases y with
    | nil => simp at hu
    | cons y0 ys =>
      cases yy with
      | nil => simp at hyy
      | cons yy0 yys =>
        have hyy2 : ys.length = yys.length := by simpa using hyy
        have hu2 : us.length = ys.length := by simpa using hu
        simp only [vecOr, vecIff, List.zipWith_cons_cons, bigAnd, List.foldr_cons, BF.eval]
        rw [Bool.and_eq_true]
        have ihr := ih ys yys hyy2 hu2
        simp only [vecOr, vecIff, bigAnd] at ihr
        rw [ihr]
        constructor
        · rintro ⟨h1, h2⟩ i hi hui
          cases i with
          | zero =>
            simp only [List.getD_cons_zero] at hui ⊢
            rw [hui] at h1
            simpa using h1
          | succ j =>
            simp only [List.getD_cons_succ] at hui ⊢
            exact h2 j (by simpa using hi) hui
        · intro h
          constructor
          · cases hu0 : (u0.eval f) with
            | true => simp
            | false =>
              have := h 0 (by simp) (by simpa using hu0)
              simp only [List.getD_cons_zero] at this
              simp [this]
          · intro j hj huj
            have := h (j + 1) (by simp; omega) (by simpa using huj)
            simpa using this

/-- C4 (amended): a length mismatch between the two signal vectors of the
equality operator, a length mismatch between the two value vectors of
undef-gating, and value vectors shorter than the undef indicator are fatal
assertion failures; value vectors longer than the indicator are truncated to
its length; and under equal lengths undef-gating assumes, as a hard
constraint, that the value vectors agree bitwise wherever the indicator is
false, imposing no constraint where it is true. -/
theorem undefGating_spec :
    (∀ (g : SatGen) (lhs rhs : SigSpec) (tsl tsr : Int), lhs.length ≠ rhs.length →
      signals_eq g lhs rhs tsl tsr = none) ∧
    (∀ (g : SatGen) (vy vyy vu : List BF), vy.length ≠ vyy.length →
      undefGating g vy vyy vu = none) ∧
    (∀ (g : SatGen) (vy vyy vu : List BF), vy.length = vyy.length →
      vy.length < vu.length → undefGating g vy vyy vu = none) ∧
    (∀ (g : SatGen) (vy vyy vu : List BF), g.model_undef = true →
      vy.length = vyy.length → vu.length = vy.length →
      ∃ F, undefGating g vy vyy vu = some { g with ez := ezAssume g.ez F } ∧
        ∀ f, (F.eval f = true ↔ ∀ i, i < vu.length →
          (vu.getD i BF.fls).eval f = false →
          (vy.getD i BF.fls).eval f = (vyy.getD i BF.fls).eval f)) := by
  refine ⟨?_, ?_, ?_, ?_⟩
  · intro g lhs rhs tsl tsr h
    unfold signals_eq
    simp [h]
  · intro g vy vyy vu h
    unfold undefGating
    by_cases hm : g.model_undef <;> simp [hm, h]
  · intro g vy vyy vu heq hlt
    unfold undefGating
    by_cases hm : g.model_undef
    · rw [if_neg (show ¬ (!g.model_undef) = true by simp [hm]),
          if_neg (show ¬ vy.length ≠ vyy.length by omega),
          if_neg (show ¬ vu.length < vy.length by omega),
          if_pos (show vy.length ≠ vu.length by omega)]
    · simp [hm]
  · intro g vy vyy vu hm heq hu
    refine ⟨bigAnd (vecOr vu (vecIff vy vyy)), ?_, ?_⟩
    · unfold undefGating
      rw [if_neg (show ¬ (!g.model_undef) = true by simp [hm]),
          if_neg (show ¬ vy.length ≠ vyy.length by omega),
          if_neg (show ¬ vu.length < vy.length by omega),
          if_neg (show ¬ vy.length ≠ vu.length by omega)]
    · intro f
      exact gating_sem vu vy vyy heq hu f

/-- Counterexample to C4 as stated: value vectors of length 2 with an
indicator of length 1 are not all of equal length, yet undef-gating succeeds
(it truncates) instead of failing the assertion. -/
theorem undefGating_not_fatal_on_long_values :
    ([BF.var 2, BF.var 3].length ≠ [BF.var 6].length) ∧
    (undefGating gU [BF.var 2, BF.var 3] [BF.var 4, BF.var 5] [BF.var 6]).isSome = true := by
  constructor
  · decide
  · rfl

/-- Witness for the equal-length conclusion of C4 at concrete vectors. -/
theorem undefGating_spec_witness :
    gU.model_undef = true ∧
    ([BF.var 2] : List BF).length = ([BF.var 3] : List BF).length ∧
    ([BF.var 6] : List BF).length = ([BF.var 2] : List BF).length ∧
    (∃ F, undefGating gU [BF.var 2] [BF.var 3] [BF.var 6] =
        some { gU with ez := ezAssume gU.ez F } ∧
      ∀ f, (F.eval f = true ↔ ∀ i, i < ([BF.var 6] : List BF).length →
        (([BF.var 6] : List BF).getD i BF.fls).eval f = false →
        (([BF.var 2] : List BF).getD i BF.fls).eval f =
          (([BF.var 3] : List BF).getD i BF.fls).eval f)) :=
  ⟨rfl, rfl, rfl, undefGating_spec.2.2.2 gU [BF.var 2] [BF.var 3] [BF.var 6] rfl rfl rfl⟩

/-! Semantics of the bitwise vector operators. -/

theorem map_eval_vecIte (c : BF) (xs ys : List BF) (f : Nat → Bool)
    (h : xs.length = ys.length) :
    (vecIte c xs ys).map (BF.eval f) =
      if c.eval f then xs.map (BF.eval f) else ys.map (BF.eval f) := by
  induction xs generalizing ys with
  | nil =>
    cases ys with
    | nil => simp [vecIte]
    | cons y ys => simp at h
  | cons x xs ih =>
    cases ys with
    | nil => simp at h
    | cons y ys =>
      have ihr := ih ys (by simpa using h)
      by_cases hc : c.eval f = true <;>
        simp [vecIte, BF.eval, hc] at ihr ⊢ <;> exact ihr

theorem map_eval_undef_ab (a b ua ub : List BF) (f : Nat → Bool) :
    (vecOr (vecNot (vecIff a b)) (vecOr ua ub)).map (BF.eval f) =
      List.zipWith (fun p q => p || q)
        (List.zipWith (fun x y : Bool => !(x == y)) (a.map (BF.eval f)) (b.map (BF.eval f)))
        (List.zipWith (fun x y : Bool => x || y) (ua.map (BF.eval f))
          (ub.map (BF.eval f))) := by
  induction a generalizing b ua ub with
  | nil => simp [vecOr, vecNot, vecIff]
  | cons a0 as ih =>
    cases b with
    | nil => simp [vecOr, vecNot, vecIff]
    | cons b0 bs =>
      cases ua with
      | nil => simp [vecOr, vecNot, vecIff]
      | cons ua0 uas =>
        cases ub with
        | nil => simp [vecOr, vecNot, vecIff]
        | cons ub0 ubs =>
          have ihr := ih bs uas ubs
          simp only [vecOr, vecNot, vecIff] at ihr ⊢
          simp only [List.zipWith_cons_cons, List.map_cons, BF.eval]
          rw [ihr]

/-- Counterexample to C3 as stated: with an undefined select and operands
that agree bitwise in value and are both flagged undefined (so values and
undef-flags nowhere disagree), the code still marks the result undefined. -/
theorem mux_undef_claim_fails :
    (mux true (BF.var 5) (BF.var 6) [BF.var 2] [BF.var 3] [BF.var 2] [BF.var 4]).2.map
        (BF.eval (fun n => decide (n ≠ 5))) = [true] ∧
    ((BF.var 2).eval (fun n => decide (n ≠ 5)) ==
      (BF.var 2).eval (fun n => decide (n ≠ 5))) = true ∧
    ((BF.var 3).eval (fun n => decide (n ≠ 5)) ==
      (BF.var 4).eval (fun n => decide (n ≠ 5))) = true ∧
    (BF.var 6).eval (fun n => decide (n ≠ 5)) = true :=
  ⟨rfl, rfl, rfl, rfl⟩

/-- C3 (amended): with undef modeling enabled, the multiplexer's value result
is the bitwise if-then-else selecting b when the select holds and a
otherwise; its undef result is, when the select is undefined, undefined
exactly wherever the operands' values disagree or either operand is itself
undefined, and otherwise equal to the undef-flags of the selected operand. -/
theorem mux_undef_spec (s us : BF) (a ua b ub : List BF)
    (hab : a.length = b.length) (hua : ua.length = a.length)
    (hub : ub.length = a.length) (f : Nat → Bool) :
    ((mux true s us a ua b ub).1.map (BF.eval f) =
      if s.eval f then b.map (BF.eval f) else a.map (BF.eval f)) ∧
    ((mux true s us a ua b ub).2.map (BF.eval f) =
      if us.eval f then
        List.zipWith (fun p q => p || q)
          (List.zipWith (fun x y : Bool => !(x == y)) (a.map (BF.eval f)) (b.map (BF.eval f)))
          (List.zipWith (fun x y : Bool => x || y) (ua.map (BF.eval f)) (ub.map (BF.eval f)))
      else if s.eval f then ub.map (BF.eval f) else ua.map (BF.eval f)) := by
  constructor
  · show (vecIte s b a).map (BF.eval f) = _
    exact map_eval_vecIte s b a f hab.symm
  · show (vecIte us (vecOr (vecNot (vecIff a b)) (vecOr ua ub)) (vecIte s ub ua)).map
        (BF.eval f) = _
    have hlen1 : (vecOr (vecNot (vecIff a b)) (vecOr ua ub)).length =
        (vecIte s ub ua).length := by
      simp [vecOr, vecNot, vecIff, vecIte]
      omega
    rw [map_eval_vecIte us _ _ f hlen1, map_eval_undef_ab,
      map_eval_vecIte s ub ua f (by omega)]

/-- Witness for C3 at concrete literal vectors and a concrete assignment. -/
theorem mux_undef_spec_witness :
    ([BF.var 2] : List BF).length = ([BF.var 3] : List BF).length ∧
    ([BF.var 7] : List BF).length = ([BF.var 2] : List BF).length ∧
    ([BF.var 8] : List BF).length = ([BF.var 2] : List BF).length ∧
    (((mux true (BF.var 5) (BF.var 6) [BF.var 2] [BF.var 7] [BF.var 3] [BF.var 8]).1.map
        (BF.eval (fun _ => true)) =
      if (BF.var 5).eval (fun _ => true) then [BF.var 3].map (BF.eval (fun _ => true))
      else [BF.var 2].map (BF.eval (fun _ => true))) ∧
    ((mux true (BF.var 5) (BF.var 6) [BF.var 2] [BF.var 7] [BF.var 3] [BF.var 8]).2.map
        (BF.eval (fun _ => true)) =
      if (BF.var 6).eval (fun _ => true) then
        List.zipWith (fun p q => p || q)
          (List.zipWith (fun x y : Bool => !(x == y))
            ([BF.var 2].map (BF.eval (fun _ => true)))
            ([BF.var 3].map (BF.eval (fun _ => true))))
          (List.zipWith (fun x y : Bool => x || y)
            ([BF.var 7].map (BF.eval (fun _ => true)))
            ([BF.var 8].map (BF.eval (fun _ => true))))
      else if (BF.var 5).eval (fun _ => true) then
        [BF.var 8].map (BF.eval (fun _ => true))
      else [BF.var 7].map (BF.eval (fun _ => true)))) :=
  ⟨rfl, rfl, rfl,
    mux_undef_spec (BF.var 5) (BF.var 6) [BF.var 2] [BF.var 7] [BF.var 3] [BF.var 8]
      rfl rfl rfl (fun _ => true)⟩

/-! Stability of the literal import layer. -/

/-- Name-table monotonicity: every frozen name keeps its literal. -/
def FrozenExtends (e e2 : EzSAT) : Prop :=
  ∀ n l, alookup e.frozen n = some l → alookup e2.frozen n = some l

/-- Session-state facts preserved by every import operation: the frozen name
table only grows, and the context fields do not change. -/
def Preserved (g g2 : SatGen) : Prop :=
  FrozenExtends g.ez g2.ez ∧ g2.pref = g.pref ∧ g2.sigmap = g.sigmap ∧
    g2.model_undef = g.model_undef

theorem preserved_refl (g : SatGen) : Preserved g g :=
  ⟨fun _ _ h => h, rfl, rfl, rfl⟩

theorem preserved_trans {g1 g2 g3 : SatGen} (h1 : Preserved g1 g2) (h2 : Preserved g2 g3) :
    Preserved g1 g3 :=
  ⟨fun n l h => h2.1 n l (h1.1 n l h), h2.2.1.trans h1.2.1, h2.2.2.1.trans h1.2.2.1,
   h2.2.2.2.trans h1.2.2.2⟩

theorem frozenNamed_lookup_self (e : EzSAT) (n : String) :
    alookup (frozenNamed e n).2.frozen n = some (frozenNamed e n).1 := by
  unfold frozenNamed
  cases h : alookup e.frozen n with
  | some l => simpa using h
  | none => simp [alookup]

theorem frozenNamed_hit (e : EzSAT) (n : String) (l : Nat)
    (h : alookup e.frozen n = some l) : frozenNamed e n = (l, e) := by
  unfold frozenNamed
  rw [h]

theorem frozenNamed_extends (e : EzSAT) (n : String) :
    FrozenExtends e (frozenNamed e n).2 := by
  intro m l hm
  unfold frozenNamed
  cases h : alookup e.frozen n with
  | some x => simpa using hm
  | none =>
    simp only [alookup]
    by_cases he : n = m
    · subst he
      rw [h] at hm
      cases hm
    · simp [he, hm]

theorem importBitW_preserved (pf : String) (um du : Bool) (g : SatGen) (b : SigBit) :
    Preserved g (importBitW pf um du g b).2 := by
  unfold importBitW
  cases b with
  | const st =>
    by_cases hc : (g.model_undef && du && decide (st = RState.Sx)) = true
    · simp only [hc, if_true]
      exact ⟨fun n l h => h, rfl, rfl, rfl⟩
    · simp only [hc, if_false]
      exact preserved_refl g
  | bit w off => exact ⟨frozenNamed_extends g.ez _, rfl, rfl, rfl⟩

theorem foldl_import_preserved (pf : String) (um du : Bool) :
    ∀ (bs : List SigBit) (vs : List Nat) (g : SatGen),
      Preserved g (List.foldl (importStep pf um du) (vs, g) bs).2 := by
  intro bs
  induction bs with
  | nil => intro vs g; exact preserved_refl g
  | cons b rest ih =>
    intro vs g
    simp only [List.foldl_cons]
    exact preserved_trans (importBitW_preserved pf um du g b)
      (ih (importStep pf um du (vs, g) b).1 (importStep pf um du (vs, g) b).2)

theorem worker_preserved {g : SatGen} {sig : SigSpec} {pf : String} {um du : Bool}
    {v : List Nat} {g2 : SatGen}
    (h : importSigSpecWorker g sig pf um du = some (v, g2)) : Preserved g g2 := by
  unfold importSigSpecWorker at h
  split at h
  · cases h
  · have he := Option.some.inj h
    have hp := foldl_import_preserved pf um du (sig.map g.sigmap) [] g
    rw [he] at hp
    exact hp

/-- One import-layer operation of an encoding session, as the claim lists
them. -/
inductive SessionOp : SatGen → SatGen → Prop
  | impSig (g : SatGen) (s : SigSpec) (ts : Int) (r : List Nat × SatGen)
      (h : importSigSpec g s ts = some r) : SessionOp g r.2
  | impDef (g : SatGen) (s : SigSpec) (ts : Int) (r : List Nat × SatGen)
      (h : importDefSigSpec g s ts = some r) : SessionOp g r.2
  | impUndef (g : SatGen) (s : SigSpec) (ts : Int) (r : List Nat × SatGen)
      (h : importUndefSigSpec g s ts = some r) : SessionOp g r.2
  | impBit (g : SatGen) (b : SigBit) (ts : Int) (r : Nat × SatGen)
      (h : importSigBit g b ts = some r) : SessionOp g r.2
  | impDefBit (g : SatGen) (b : SigBit) (ts : Int) (r : Nat × SatGen)
      (h : importDefSigBit g b ts = some r) : SessionOp g r.2
  | impUndefBit (g : SatGen) (b : SigBit) (ts : Int) (r : Nat × SatGen)
      (h : importUndefSigBit g b ts = some r) : SessionOp g r.2
  | queryBit (g : SatGen) (b : SigBit) (ts : Int) (r : Bool × SatGen)
      (h : importedSigBit g b ts = some r) : SessionOp g r.2

/-- Any finite sequence of import-layer operations. -/
inductive Steps : SatGen → SatGen → Prop
  | refl (g : SatGen) : Steps g g
  | step (g1 g2 g3 : SatGen) (h : SessionOp g1 g2) (hs : Steps g2 g3) : Steps g1 g3

theorem sessionOp_preserved {g g2 : SatGen} (h : SessionOp g g2) : Preserved g g2 := by
  cases h with
  | impSig s ts r h =>
    unfold importSigSpec at h
    split at h
    · cases h
    · exact worker_preserved h
  | impDef s ts r h =>
    unfold importDefSigSpec at h
    split at h
    · cases h
    · exact worker_preserved h
  | impUndef s ts r h =>
    unfold importUndefSigSpec at h
    split at h
    · cases h
    · exact worker_preserved h
  | impBit b ts r h =>
    unfold importSigBit at h
    split at h
    · cases h
    · cases hw : importSigSpecWorker g [b] (g.pref ++ tsName ts) false false with
      | none => rw [hw] at h; exact Option.noConfusion h
      | some p =>
        obtain ⟨vs, g1⟩ := p
        cases vs with
        | nil => rw [hw] at h; exact Option.noConfusion h
        | cons l rest =>
          rw [hw] at h
          have he := Option.some.inj h
          rw [show r.2 = g1 from (congrArg Prod.snd he).symm]
          exact worker_preserved hw
  | impDefBit b ts r h =>
    unfold importDefSigBit at h
    split at h
    · cases h
    · cases hw : importSigSpecWorker g [b] (g.pref ++ tsName ts) false true with
      | none => rw [hw] at h; exact Option.noConfusion h
      | some p =>
        obtain ⟨vs, g1⟩ := p
        cases vs with
        | nil => rw [hw] at h; exact Option.noConfusion h
        | cons l rest =>
          rw [hw] at h
          have he := Option.some.inj h
          rw [show r.2 = g1 from (congrArg Prod.snd he).symm]
          exact worker_preserved hw
  | impUndefBit b ts r h =>
    unfold importUndefSigBit at h
    split at h
    · cases h
    · cases hw : importSigSpecWorker g [b] ("undef:" ++ g.pref ++ tsName ts) true false with
      | none => rw [hw] at h; exact Option.noConfusion h
      | some p =>
        obtain ⟨vs, g1⟩ := p
        cases vs with
        | nil => rw [hw] at h; exact Option.noConfusion h
        | cons l rest =>
          rw [hw] at h
          have he := Option.some.inj h
          rw [show r.2 = g1 from (congrArg Prod.snd he).symm]
          exact worker_preserved hw
  | queryBit b ts r h =>
    unfold importedSigBit at h
    split at h
    · cases h
    · have he := Option.some.inj h
      have hr : r.2 = { g with imported_signals := cacheEnsure g.imported_signals (g.pref ++ tsName ts) } := (congrArg Prod.snd he).symm
      rw [hr]
      exact ⟨fun n l hh => hh, rfl, rfl, rfl⟩

theorem steps_preserved {g g2 : SatGen} (h : Steps g g2) : Preserved g g2 := by
  induction h with
  | refl g => exact preserved_refl g
  | step g1 g2 g3 hop _ ih => exact preserved_trans (sessionOp_preserved hop) ih

/-- Which of the three bit-import entry points is used (the scope key's
undef-flag namespace is determined by the choice). -/
inductive ImportKind
  | plain
  | dup
  | undefK
deriving DecidableEq

/-- Dispatch to `importSigBit` / `importDefSigBit` / `importUndefSigBit`. -/
def importBitAt : ImportKind → SatGen → SigBit → Int → Option (Nat × SatGen)
  | .plain, g, b, ts => importSigBit g b ts
  | .dup, g, b, ts => importDefSigBit g b ts
  | .undefK, g, b, ts => importUndefSigBit g b ts

/-- The scope prefix (name prefix, timestep, undef-flag namespace) an import
kind uses. -/
def scopeName (k : ImportKind) (pre : String) (ts : Int) : String :=
  match k with
  | .undefK => "undef:" ++ pre ++ tsName ts
  | _ => pre ++ tsName ts

theorem worker_wire_eq (g : SatGen) (b : SigBit) (w : Wire) (off : Nat) (pf : String)
    (um du : Bool) (hw : g.sigmap b = SigBit.bit w off)
    (hmu : um = true → g.model_undef = true) :
    importSigSpecWorker g [b] pf um du =
      some ([(frozenNamed g.ez (pf ++ bitName w off)).1],
        { g with ez := (frozenNamed g.ez (pf ++ bitName w off)).2,
                 imported_signals := cacheInsert g.imported_signals pf (SigBit.bit w off)
                   (frozenNamed g.ez (pf ++ bitName w off)).1 }) := by
  unfold importSigSpecWorker
  have hc : (um && !g.model_undef) = false := by
    cases um with
    | false => simp
    | true => simp [hmu rfl]
  rw [if_neg (by simp [hc])]
  simp only [List.map_cons, List.map_nil, hw, List.foldl_cons, List.foldl_nil]
  rfl

theorem importBitAt_wire (k : ImportKind) (g : SatGen) (b : SigBit) (w : Wire) (off : Nat)
    (ts : Int) (hts : ts ≠ 0) (hw : g.sigmap b = SigBit.bit w off)
    (hmu : k = ImportKind.undefK → g.model_undef = true) :
    importBitAt k g b ts =
      some ((frozenNamed g.ez (scopeName k g.pref ts ++ bitName w off)).1,
        { g with ez := (frozenNamed g.ez (scopeName k g.pref ts ++ bitName w off)).2,
                 imported_signals := cacheInsert g.imported_signals (scopeName k g.pref ts)
                   (SigBit.bit w off)
                   (frozenNamed g.ez (scopeName k g.pref ts ++ bitName w off)).1 }) := by
  cases k with
  | plain =>
    show importSigBit g b ts = _
    unfold importSigBit
    rw [if_neg hts, worker_wire_eq g b w off _ false false hw (by simp)]
    rfl
  | dup =>
    show importDefSigBit g b ts = _
    unfold importDefSigBit
    rw [if_neg hts, worker_wire_eq g b w off _ false true hw (by simp)]
    rfl
  | undefK =>
    show importUndefSigBit g b ts = _
    unfold importUndefSigBit
    rw [if_neg hts, worker_wire_eq g b w off _ true false hw (fun _ => hmu rfl)]
    rfl

theorem importUndefSigBit_model {g : SatGen} {b : SigBit} {ts : Int} {r : Nat × SatGen}
    (h : importUndefSigBit g b ts = some r) : g.model_undef = true := by
  cases hm : g.model_undef with
  | true => rfl
  | false =>
    rw [importUndefSigBit] at h
    split at h
    · cases h
    · simp [importSigSpecWorker, hm] at h

/-- C1 (amended): for every wire-backed signal bit (one whose canonical form
references a wire) and every scope key, two imports of the bit at that key
within the same session return the identical literal, regardless of
intervening import-layer operations on other bits or signals. -/
theorem wire_bit_import_stable (k : ImportKind) (g g1 g2 : SatGen) (b : SigBit) (w : Wire)
    (off : Nat) (l : Nat) (ts : Int)
    (hw : g.sigmap b = SigBit.bit w off)
    (h1 : importBitAt k g b ts = some (l, g1))
    (hs : Steps g1 g2) :
    ∃ g3, importBitAt k g2 b ts = some (l, g3) := by
  have hts : ts ≠ 0 := by
    intro h0
    subst h0
    cases k <;>
      simp [importBitAt, importSigBit, importDefSigBit, importUndefSigBit] at h1
  have hmu : k = ImportKind.undefK → g.model_undef = true := by
    intro hk
    subst hk
    exact importUndefSigBit_model h1
  rw [importBitAt_wire k g b w off ts hts hw hmu] at h1
  have he := Option.some.inj h1
  have hl : (frozenNamed g.ez (scopeName k g.pref ts ++ bitName w off)).1 = l :=
    congrArg Prod.fst he
  have hez : (frozenNamed g.ez (scopeName k g.pref ts ++ bitName w off)).2 = g1.ez :=
    congrArg (fun p => p.2.ez) he
  have hp1 : g.pref = g1.pref := congrArg (fun p => p.2.pref) he
  have hsm1 : g.sigmap = g1.sigmap := congrArg (fun p => p.2.sigmap) he
  have hmu1 : g.model_undef = g1.model_undef := congrArg (fun p => p.2.model_undef) he
  have hpres := steps_preserved hs
  have hlook1 : alookup g1.ez.frozen (scopeName k g.pref ts ++ bitName w off) = some l := by
    rw [← hez, frozenNamed_lookup_self, hl]
  have hlook2 : alookup g2.ez.frozen (scopeName k g.pref ts ++ bitName w off) = some l :=
    hpres.1 _ l hlook1
  have hpref : g2.pref = g.pref := hpres.2.1.trans hp1.symm
  have hsm : g2.sigmap b = SigBit.bit w off := by
    rw [hpres.2.2.1, ← hsm1]
    exact hw
  have hmu2 : k = ImportKind.undefK → g2.model_undef = true := by
    intro hk
    rw [hpres.2.2.2, ← hmu1]
    exact hmu hk
  rw [importBitAt_wire k g2 b w off ts hts hsm hmu2, hpref,
    frozenNamed_hit g2.ez _ l hlook2]
  exact ⟨_, rfl⟩

/-- Counterexample to C1 as stated: in duplicate-undef mode an undefined
constant bit gets a fresh literal on every import, so two imports of the same
bit at the same scope key return different literals. -/
theorem dup_undef_import_not_stable :
    ∃ l1 g1 l2 g2, importDefSigBit gU (SigBit.const RState.Sx) (-1) = some (l1, g1) ∧
      importDefSigBit g1 (SigBit.const RState.Sx) (-1) = some (l2, g2) ∧ l1 ≠ l2 := by
  refine ⟨2, _, 3, _, rfl, rfl, by decide⟩

/-- A second one-bit wire used by the stability witness as the
intervening import. -/
def wB : Wire := { name := "\\b", width := 1 }

/-- The fresh session after importing the bit of wire a at timestep -1. -/
def gA1 : SatGen :=
  { ez := { nextLit := 3, frozen := [("a", 2)], assumed := [] }, sigmap := id, pref := "",
    imported_signals := [("", [(bitA, 2)])], initstates := [], ignore_div_by_zero := false,
    model_undef := false }

/-- The session after additionally importing the bit of wire b. -/
def gA2 : SatGen :=
  { ez := { nextLit := 4, frozen := [("b", 3), ("a", 2)], assumed := [] }, sigmap := id,
    pref := "", imported_signals := [("", [(bitA, 2), (SigBit.bit wB 0, 3)])],
    initstates := [], ignore_div_by_zero := false, model_undef := false }

/-- Witness for C1 at a concrete session: importing the bit of wire a gives
literal 2, an intervening import of the other wire's bit happens, and
re-importing still gives literal 2. -/
theorem wire_bit_import_stable_witness :
    g0.sigmap bitA = SigBit.bit wA 0 ∧
    importBitAt ImportKind.plain g0 bitA (-1) = some (2, gA1) ∧
    Steps gA1 gA2 ∧
    ∃ g3, importBitAt ImportKind.plain gA2 bitA (-1) = some (2, g3) := by
  have himp : importSigBit gA1 (SigBit.bit wB 0) (-1) = some (3, gA2) := rfl
  have hs : Steps gA1 gA2 :=
    Steps.step gA1 gA2 gA2
      (SessionOp.impBit gA1 (SigBit.bit wB 0) (-1) (3, gA2) himp)
      (Steps.refl gA2)
  exact ⟨rfl, rfl, hs,
    wire_bit_import_stable ImportKind.plain g0 gA1 gA2 bitA wA 0 2 (-1) rfl rfl hs⟩

/-! The property-obligation builder. -/

theorem worker_singleton (g : SatGen) (sig : SigSpec) (pf : String) (um du : Bool)
    (hmu : um = true → g.model_undef = true) (hlen : sig.length = 1) :
    ∃ x g2, importSigSpecWorker g sig pf um du = some ([x], g2) := by
  cases sig with
  | nil => simp at hlen
  | cons b rest =>
    cases rest with
    | cons b2 r2 => simp at hlen
    | nil =>
      refine ⟨(importBitW pf um du g (g.sigmap b)).1,
        (importBitW pf um du g (g.sigmap b)).2, ?_⟩
      unfold importSigSpecWorker
      have hc : (um && !g.model_undef) = false := by
        cases um with
        | false => simp
        | true => simp [hmu rfl]
      rw [if_neg (by simp [hc])]
      rfl

theorem importDef_singleton (g : SatGen) (sig : SigSpec) (ts : Int)
    (hts : ts ≠ 0) (hlen : sig.length = 1) :
    ∃ x g2, importDefSigSpec g sig ts = some ([x], g2) := by
  obtain ⟨x, g2, hw⟩ := worker_singleton g sig (g.pref ++ tsName ts) false true
    (by simp) hlen
  exact ⟨x, g2, by unfold importDefSigSpec; rw [if_neg hts, hw]⟩

theorem importUndef_singleton (g : SatGen) (sig : SigSpec) (ts : Int)
    (hts : ts ≠ 0) (hmu : g.model_undef = true) (hlen : sig.length = 1) :
    ∃ x g2, importUndefSigSpec g sig ts = some ([x], g2) := by
  obtain ⟨x, g2, hw⟩ := worker_singleton g sig ("undef:" ++ g.pref ++ tsName ts) true false
    (fun _ => hmu) hlen
  exact ⟨x, g2, by unfold importUndefSigSpec; rw [if_neg hts, hw]⟩

theorem mkProp_eval (ctype : String) (check en : BF) (f : Nat → Bool) :
    (mkProp ctype check en).eval f =
      (if ctype = "$cover" then check.eval f && en.eval f
       else !(en.eval f) || check.eval f) := by
  unfold mkProp
  by_cases h : ctype = "$cover" <;> simp [h, BF.eval]

/-- C8: for an assert/assume/cover cell with single-bit check and enable, the
obligation is the conjunction of check and enable for a cover, and the
materialized implication NOT(enable) OR check for assert/assume; with undef
modeling enabled, check and enable are each first conjoined with the negation
of their own undef-flag, so an undefined check or enable counts as false. -/
theorem importPropertyCell_spec (g : SatGen) (cell : SCell) (ts : Int)
    (hty : cell.ctype = "$assert" ∨ cell.ctype = "$assume" ∨ cell.ctype = "$cover")
    (hA : cell.portA.length = 1) (hE : cell.portEN.length = 1) (hts : ts ≠ 0) :
    ∃ c g1 e g2,
      importDefSigSpec g (cell.portA.map g.sigmap) ts = some ([c], g1) ∧
      importDefSigSpec g1 (cell.portEN.map g.sigmap) ts = some ([e], g2) ∧
      ((g.model_undef = false →
        importPropertyCell g cell ts =
          some (mkProp cell.ctype (BF.var c) (BF.var e), g2) ∧
        ∀ f, (mkProp cell.ctype (BF.var c) (BF.var e)).eval f =
          (if cell.ctype = "$cover" then evalVar f c && evalVar f e
           else !(evalVar f e) || evalVar f c)) ∧
      (g.model_undef = true →
        ∃ uc g3 ue g4,
          importUndefSigSpec g2 (cell.portA.map g.sigmap) ts = some ([uc], g3) ∧
          importUndefSigSpec g3 (cell.portEN.map g.sigmap) ts = some ([ue], g4) ∧
          importPropertyCell g cell ts =
            some (mkProp cell.ctype (BF.band (BF.bnot (BF.var uc)) (BF.var c))
              (BF.band (BF.bnot (BF.var ue)) (BF.var e)), g4) ∧
          ∀ f, (mkProp cell.ctype (BF.band (BF.bnot (BF.var uc)) (BF.var c))
              (BF.band (BF.bnot (BF.var ue)) (BF.var e))).eval f =
            (if cell.ctype = "$cover"
              then (!(evalVar f uc) && evalVar f c) && (!(evalVar f ue) && evalVar f e)
              else !(!(evalVar f ue) && evalVar f e) ||
                (!(evalVar f uc) && evalVar f c)))) := by
  have hA2 : (cell.portA.map g.sigmap).length = 1 := by simpa using hA
  have hE2 : (cell.portEN.map g.sigmap).length = 1 := by simpa using hE
  obtain ⟨c, g1, hc⟩ := importDef_singleton g (cell.portA.map g.sigmap) ts hts hA2
  have hp1 : Preserved g g1 := by
    have hw : importSigSpecWorker g (cell.portA.map g.sigmap)
        (g.pref ++ tsName ts) false true = some ([c], g1) := by
      rw [importDefSigSpec, if_neg hts] at hc
      exact hc
    exact worker_preserved hw
  have hE3 : (cell.portEN.map g1.sigmap).length = 1 := by
    rw [hp1.2.2.1]
    simpa using hE
  obtain ⟨e, g2, he0⟩ := importDef_singleton g1 (cell.portEN.map g.sigmap) ts hts
    (by simpa using hE)
  have hp2 : Preserved g1 g2 := by
    have hw : importSigSpecWorker g1 (cell.portEN.map g.sigmap)
        (g1.pref ++ tsName ts) false true = some ([e], g2) := by
      rw [importDefSigSpec, if_neg hts] at he0
      exact he0
    exact worker_preserved hw
  refine ⟨c, g1, e, g2, hc, he0, ?_, ?_⟩
  · intro hmu
    constructor
    · unfold importPropertyCell
      rw [if_neg (by simp [hty]), if_neg (by simp [hA2]), if_neg (by simp [hE2])]
      simp only [hc, he0, hmu, List.headD_cons, Bool.false_eq_true, if_false]
    · intro f
      exact mkProp_eval cell.ctype (BF.var c) (BF.var e) f
  · intro hmu
    have hmu2 : g2.model_undef = true := by
      rw [hp2.2.2.2, hp1.2.2.2]
      exact hmu
    obtain ⟨uc, g3, huc⟩ := importUndef_singleton g2 (cell.portA.map g.sigmap) ts hts hmu2
      (by simpa using hA)
    have hp3 : Preserved g2 g3 := by
      have hw : importSigSpecWorker g2 (cell.portA.map g.sigmap)
          ("undef:" ++ g2.pref ++ tsName ts) true false = some ([uc], g3) := by
        rw [importUndefSigSpec, if_neg hts] at huc
        exact huc
      exact worker_preserved hw
    have hmu3 : g3.model_undef = true := by
      rw [hp3.2.2.2]
      exact hmu2
    obtain ⟨ue, g4, hue⟩ := importUndef_singleton g3 (cell.portEN.map g.sigmap) ts hts hmu3
      (by simpa using hE)
    refine ⟨uc, g3, ue, g4, huc, hue, ?_, ?_⟩
    · unfold importPropertyCell
      rw [if_neg (by simp [hty]), if_neg (by simp [hA2]), if_neg (by simp [hE2])]
      simp only [hc, he0, hmu, huc, hue, List.headD_cons, if_true]
    · intro f
      exact mkProp_eval cell.ctype _ _ f

/-- The concrete cover cell used by the witness. -/
def cellCover : SCell :=
  { ctype := "$cover", portA := [bitA], portEN := [SigBit.bit wB 0],
    paramASigned := none, paramBSigned := none }

/-- Witness for C8 at a concrete cover cell in a fresh session. -/
theorem importPropertyCell_spec_witness :
    (cellCover.ctype = "$assert" ∨ cellCover.ctype = "$assume" ∨
      cellCover.ctype = "$cover") ∧
    cellCover.portA.length = 1 ∧ cellCover.portEN.length = 1 ∧ (-1 : Int) ≠ 0 ∧
    (∃ c g1 e g2,
      importDefSigSpec g0 (cellCover.portA.map g0.sigmap) (-1) = some ([c], g1) ∧
      importDefSigSpec g1 (cellCover.portEN.map g0.sigmap) (-1) = some ([e], g2) ∧
      ((g0.model_undef = false →
        importPropertyCell g0 cellCover (-1) =
          some (mkProp cellCover.ctype (BF.var c) (BF.var e), g2) ∧
        ∀ f, (mkProp cellCover.ctype (BF.var c) (BF.var e)).eval f =
          (if cellCover.ctype = "$cover" then evalVar f c && evalVar f e
           else !(evalVar f e) || evalVar f c)) ∧
      (g0.model_undef = true →
        ∃ uc g3 ue g4,
          importUndefSigSpec g2 (cellCover.portA.map g0.sigmap) (-1) = some ([uc], g3) ∧
          importUndefSigSpec g3 (cellCover.portEN.map g0.sigmap) (-1) = some ([ue], g4) ∧
          importPropertyCell g0 cellCover (-1) =
            some (mkProp cellCover.ctype (BF.band (BF.bnot (BF.var uc)) (BF.var c))
              (BF.band (BF.bnot (BF.var ue)) (BF.var e)), g4) ∧
          ∀ f, (mkProp cellCover.ctype (BF.band (BF.bnot (BF.var uc)) (BF.var c))
              (BF.band (BF.bnot (BF.var ue)) (BF.var e))).eval f =
            (if cellCover.ctype = "$cover"
              then (!(evalVar f uc) && evalVar f c) && (!(evalVar f ue) && evalVar f e)
              else !(!(evalVar f ue) && evalVar f e) ||
                (!(evalVar f uc) && evalVar f c))))) :=
  ⟨Or.inr (Or.inr rfl), rfl, rfl, by decide,
    importPropertyCell_spec g0 cellCover (-1) (Or.inr (Or.inr rfl)) rfl rfl (by decide)⟩

/-! Equality-with-undef: evaluation under an already-imported state. -/

/-- Whether a (canonicalized) bit already resolves without allocating: a
constant always does, a wire bit when its scope name is frozen. -/
def wireHit (e : EzSAT) (pf : String) (b : SigBit) : Bool :=
  match b with
  | .const _ => true
  | .bit w off => (alookup e.frozen (pf ++ bitName w off)).isSome

/-- The literal a (canonicalized) bit resolves to in a state where it is
already imported. -/
def litOfBit (e : EzSAT) (pf : String) (um : Bool) (b : SigBit) : Nat :=
  match b with
  | .const st => if (if um then st = RState.Sx else st = RState.S1) then 0 else 1
  | .bit w off => (alookup e.frozen (pf ++ bitName w off)).getD 0

theorem foldl_import_allHit (pf : String) (um : Bool) :
    ∀ (bs : List SigBit) (vs : List Nat) (g : SatGen),
      (∀ x ∈ bs, wireHit g.ez pf x = true) →
      ∃ g2, List.foldl (importStep pf um false) (vs, g) bs =
        (vs ++ bs.map (litOfBit g.ez pf um), g2) ∧ g2.ez = g.ez ∧
        g2.sigmap = g.sigmap ∧ g2.pref = g.pref ∧ g2.model_undef = g.model_undef := by
  intro bs
  induction bs with
  | nil =>
    intro vs g _
    exact ⟨g, by simp, rfl, rfl, rfl, rfl⟩
  | cons x rest ih =>
    intro vs g hh
    simp only [List.foldl_cons]
    cases hx : x with
    | const st =>
      have hstep : importStep pf um false (vs, g) (SigBit.const st) =
          (vs ++ [litOfBit g.ez pf um (SigBit.const st)], g) := by
        simp only [importStep, importBitW, litOfBit]
        simp
      rw [hstep]
      obtain ⟨g2, hfold, hez, hsm, hpf, hmu⟩ :=
        ih (vs ++ [litOfBit g.ez pf um (SigBit.const st)]) g
          (fun y hy => hh y (by rw [hx]; exact List.mem_cons_of_mem _ hy))
      refine ⟨g2, ?_, hez, hsm, hpf, hmu⟩
      rw [hfold]
      simp
    | bit w off =>
      have hhx : (alookup g.ez.frozen (pf ++ bitName w off)).isSome = true := by
        have := hh x (by rw [hx]; exact List.mem_cons_self _ _)
        rw [hx] at this
        exact this
      obtain ⟨l, hl⟩ : ∃ l, alookup g.ez.frozen (pf ++ bitName w off) = some l := by
        cases halo : alookup g.ez.frozen (pf ++ bitName w off) with
        | none => rw [halo] at hhx; simp at hhx
        | some l2 => exact ⟨l2, rfl⟩
      have hstep : importStep pf um false (vs, g) (SigBit.bit w off) =
          (vs ++ [l], { g with imported_signals := cacheInsert g.imported_signals pf (SigBit.bit w off) l }) := by
        simp only [importStep, importBitW]
        rw [frozenNamed_hit g.ez _ l hl]
      rw [hstep]
      obtain ⟨g2, hfold, hez, hsm, hpf, hmu⟩ :=
        ih (vs ++ [l])
          { g with imported_signals := cacheInsert g.imported_signals pf (SigBit.bit w off) l }
          (fun y hy => hh y (by rw [hx]; exact List.mem_cons_of_mem _ hy))
      refine ⟨g2, ?_, hez, hsm, hpf, hmu⟩
      rw [hfold]
      simp [litOfBit, hx, hl]

theorem importSig_allHit (g : SatGen) (sig : SigSpec) (ts : Int) (hts : ts ≠ 0)
    (hh : ∀ x ∈ sig.map g.sigmap, wireHit g.ez (g.pref ++ tsName ts) x = true) :
    ∃ g2, importSigSpec g sig ts =
      some ((sig.map g.sigmap).map (litOfBit g.ez (g.pref ++ tsName ts) false), g2) ∧
      g2.ez = g.ez ∧ g2.sigmap = g.sigmap ∧ g2.pref = g.pref ∧
      g2.model_undef = g.model_undef := by
  obtain ⟨g2, hfold, hez, hsm, hpf, hmu⟩ :=
    foldl_import_allHit (g.pref ++ tsName ts) false (sig.map g.sigmap) [] g hh
  refine ⟨g2, ?_, hez, hsm, hpf, hmu⟩
  unfold importSigSpec importSigSpecWorker
  rw [if_neg hts, if_neg (by simp), hfold]
  simp

theorem importUndef_allHit (g : SatGen) (sig : SigSpec) (ts : Int) (hts : ts ≠ 0)
    (hmu0 : g.model_undef = true)
    (hh : ∀ x ∈ sig.map g.sigmap,
      wireHit g.ez ("undef:" ++ g.pref ++ tsName ts) x = true) :
    ∃ g2, importUndefSigSpec g sig ts =
      some ((sig.map g.sigmap).map
        (litOfBit g.ez ("undef:" ++ g.pref ++ tsName ts) true), g2) ∧
      g2.ez = g.ez ∧ g2.sigmap = g.sigmap ∧ g2.pref = g.pref ∧
      g2.model_undef = g.model_undef := by
  obtain ⟨g2, hfold, hez, hsm, hpf, hmu⟩ :=
    foldl_import_allHit ("undef:" ++ g.pref ++ tsName ts) true (sig.map g.sigmap) [] g hh
  refine ⟨g2, ?_, hez, hsm, hpf, hmu⟩
  unfold importUndefSigSpec importSigSpecWorker
  rw [if_neg hts, if_neg (by simp [hmu0]), hfold]
  simp

/-- The boolean meaning of the per-bit equality-with-undef conjunction: the
undef-flags agree, and the disjunction of each value with its own undef-flag
agrees between the two sides, at every bit position. -/
def eqSemB (f : Nat → Bool) : List Nat → List Nat → List Nat → List Nat → Bool
  | a :: as, ua :: uas, b :: bs, ub :: ubs =>
    ((evalVar f ua == evalVar f ub) &&
      ((evalVar f a || evalVar f ua) == (evalVar f b || evalVar f ub))) &&
      eqSemB f as uas bs ubs
  | _, _, _, _ => true

theorem beqComm (x y : Bool) : (x == y) = (y == x) := by
  cases x <;> cases y <;> rfl

theorem eval_eqBits_sem : ∀ (as us bs ubs : List Nat) (f : Nat → Bool),
    (bigAnd (eqBits as us bs ubs)).eval f = eqSemB f as us bs ubs := by
  intro as
  induction as with
  | nil =>
    intro us bs ubs f
    cases us <;> cases bs <;> cases ubs <;> simp [eqBits, bigAnd, eqSemB, BF.eval]
  | cons a as2 ih =>
    intro us bs ubs f
    cases us with
    | nil => cases bs <;> cases ubs <;> simp [eqBits, bigAnd, eqSemB, BF.eval]
    | cons u us2 =>
      cases bs with
      | nil => cases ubs <;> simp [eqBits, bigAnd, eqSemB, BF.eval]
      | cons b bs2 =>
        cases ubs with
        | nil => simp [eqBits, bigAnd, eqSemB, BF.eval]
        | cons ub ubs2 =>
          simp only [eqBits, bigAnd, List.foldr_cons, BF.eval, eqSemB]
          rw [show List.foldr BF.band BF.tru (eqBits as2 us2 bs2 ubs2) =
            bigAnd (eqBits as2 us2 bs2 ubs2) from rfl]
          rw [ih us2 bs2 ubs2 f]

theorem eqSemB_symm : ∀ (as us bs ubs : List Nat) (f : Nat → Bool),
    eqSemB f as us bs ubs = eqSemB f bs ubs as us := by
  intro as
  induction as with
  | nil =>
    intro us bs ubs f
    cases us <;> cases bs <;> cases ubs <;> simp [eqSemB]
  | cons a as2 ih =>
    intro us bs ubs f
    cases us with
    | nil => cases bs <;> cases ubs <;> simp [eqSemB]
    | cons u us2 =>
      cases bs with
      | nil => cases ubs <;> simp [eqSemB]
      | cons b bs2 =>
        cases ubs with
        | nil => simp [eqSemB]
        | cons ub ubs2 =>
          simp only [eqSemB]
          rw [ih us2 bs2 ubs2 f, beqComm (evalVar f u) (evalVar f ub),
            beqComm (evalVar f a || evalVar f u) (evalVar f b || evalVar f ub)]

theorem signals_eq_allHit (g : SatGen) (lhs rhs : SigSpec) (tsl tsr : Int)
    (hm : g.model_undef = true) (hlen : lhs.length = rhs.length)
    (htsl : tsl ≠ 0) (htsr : (if tsr < 0 then tsl else tsr) ≠ 0)
    (hh1 : ∀ x ∈ lhs.map g.sigmap, wireHit g.ez (g.pref ++ tsName tsl) x = true)
    (hh2 : ∀ x ∈ rhs.map g.sigmap,
      wireHit g.ez (g.pref ++ tsName (if tsr < 0 then tsl else tsr)) x = true)
    (hu1 : ∀ x ∈ lhs.map g.sigmap,
      wireHit g.ez ("undef:" ++ g.pref ++ tsName tsl) x = true)
    (hu2 : ∀ x ∈ rhs.map g.sigmap,
      wireHit g.ez ("undef:" ++ g.pref ++ tsName (if tsr < 0 then tsl else tsr)) x = true) :
    ∃ g4, signals_eq g lhs rhs tsl tsr =
      some (bigAnd (eqBits
        ((lhs.map g.sigmap).map (litOfBit g.ez (g.pref ++ tsName tsl) false))
        ((lhs.map g.sigmap).map (litOfBit g.ez ("undef:" ++ g.pref ++ tsName tsl) true))
        ((rhs.map g.sigmap).map
          (litOfBit g.ez (g.pref ++ tsName (if tsr < 0 then tsl else tsr)) false))
        ((rhs.map g.sigmap).map
          (litOfBit g.ez ("undef:" ++ g.pref ++ tsName (if tsr < 0 then tsl else tsr)) true))),
        g4) := by
  obtain ⟨gx1, h1, hez1, hsm1, hpf1, hmu1⟩ := importSig_allHit g lhs tsl htsl hh1
  have hh2x : ∀ x ∈ rhs.map gx1.sigmap,
      wireHit gx1.ez (gx1.pref ++ tsName (if tsr < 0 then tsl else tsr)) x = true := by
    rw [hez1, hsm1, hpf1]
    exact hh2
  obtain ⟨gx2, h2, hez2, hsm2, hpf2, hmu2⟩ :=
    importSig_allHit gx1 rhs (if tsr < 0 then tsl else tsr) htsr hh2x
  have hu1x : ∀ x ∈ lhs.map gx2.sigmap,
      wireHit gx2.ez ("undef:" ++ gx2.pref ++ tsName tsl) x = true := by
    rw [hez2, hez1, hsm2, hsm1, hpf2, hpf1]
    exact hu1
  obtain ⟨gx3, h3, hez3, hsm3, hpf3, hmu3⟩ := importUndef_allHit gx2 lhs tsl htsl
    (by rw [hmu2, hmu1]; exact hm) hu1x
  have hu2x : ∀ x ∈ rhs.map gx3.sigmap,
      wireHit gx3.ez ("undef:" ++ gx3.pref ++ tsName (if tsr < 0 then tsl else tsr)) x =
        true := by
    rw [hez3, hez2, hez1, hsm3, hsm2, hsm1, hpf3, hpf2, hpf1]
    exact hu2
  obtain ⟨gx4, h4, hez4, hsm4, hpf4, hmu4⟩ :=
    importUndef_allHit gx3 rhs (if tsr < 0 then tsl else tsr) htsr
      (by rw [hmu3, hmu2, hmu1]; exact hm) hu2x
  rw [hsm1] at h2
  rw [hez1, hpf1] at h2
  rw [hsm2, hsm1] at h3
  rw [hez2, hez1, hpf2, hpf1] at h3
  rw [hsm3, hsm2, hsm1] at h4
  rw [hez3, hez2, hez1, hpf3, hpf2, hpf1] at h4
  refine ⟨gx4, ?_⟩
  unfold signals_eq
  rw [if_neg (by omega)]
  simp only [h1, h2, h3, h4, hm, Bool.not_true, Bool.false_eq_true, if_false]

/-- C6 (amended): for equal-length operands whose bits are already imported
at the relevant scopes, and timesteps that are equal or both positive,
equality-with-undef is symmetric: signals_eq(a, b, tl, tr) is logically
equivalent to signals_eq(b, a, tr, tl); and the formula evaluates to the
claimed per-bit condition: undef-flags agree and the disjunction of each
value with its own undef-flag agrees, conjoined over all bit positions. -/
theorem signals_eq_symmetric (g : SatGen) (a b : SigSpec) (tl tr : Int)
    (hm : g.model_undef = true) (hlen : a.length = b.length)
    (hts0 : tl ≠ 0) (hts1 : tr ≠ 0)
    (htt : tl = tr ∨ (0 < tl ∧ 0 < tr))
    (hhA : ∀ x ∈ a.map g.sigmap, wireHit g.ez (g.pref ++ tsName tl) x = true)
    (hhB : ∀ x ∈ b.map g.sigmap, wireHit g.ez (g.pref ++ tsName tr) x = true)
    (huA : ∀ x ∈ a.map g.sigmap, wireHit g.ez ("undef:" ++ g.pref ++ tsName tl) x = true)
    (huB : ∀ x ∈ b.map g.sigmap,
      wireHit g.ez ("undef:" ++ g.pref ++ tsName tr) x = true) :
    ∃ F1 g1 F2 g2,
      signals_eq g a b tl tr = some (F1, g1) ∧
      signals_eq g b a tr tl = some (F2, g2) ∧
      (∀ f, F1.eval f = F2.eval f) ∧
      (∀ f, F1.eval f =
        eqSemB f ((a.map g.sigmap).map (litOfBit g.ez (g.pref ++ tsName tl) false))
          ((a.map g.sigmap).map (litOfBit g.ez ("undef:" ++ g.pref ++ tsName tl) true))
          ((b.map g.sigmap).map (litOfBit g.ez (g.pref ++ tsName tr) false))
          ((b.map g.sigmap).map
            (litOfBit g.ez ("undef:" ++ g.pref ++ tsName tr) true))) := by
  have e1 : (if tr < 0 then tl else tr) = tr := by
    rcases htt with h | h
    · split <;> omega
    · rw [if_neg (by omega)]
  have e2 : (if tl < 0 then tr else tl) = tl := by
    rcases htt with h | h
    · split <;> omega
    · rw [if_neg (by omega)]
  obtain ⟨g1, hF1⟩ := signals_eq_allHit g a b tl tr hm hlen hts0
    (by rw [e1]; exact hts1) hhA (by rw [e1]; exact hhB) huA (by rw [e1]; exact huB)
  obtain ⟨g2, hF2⟩ := signals_eq_allHit g b a tr tl hm hlen.symm hts1
    (by rw [e2]; exact hts0) hhB (by rw [e2]; exact hhA) huB (by rw [e2]; exact huA)
  rw [e1] at hF1
  rw [e2] at hF2
  refine ⟨_, g1, _, g2, hF1, hF2, ?_, ?_⟩
  · intro f
    rw [eval_eqBits_sem, eval_eqBits_sem, eqSemB_symm]
  · intro f
    rw [eval_eqBits_sem]

/-- Two one-bit wires used by the C6 counterexample and witness. -/
def wP : Wire := { name := "\\p", width := 1 }

/-- The second wire of the C6 counterexample. -/
def wQ : Wire := { name := "\\q", width := 1 }

/-- The frozen name table of the C6 counterexample session: the operand bits
are imported both at timestep 1 and at the combinational scope. -/
def gC6frozen : List (String × Nat) :=
  [("@1:p", 2), ("@1:q", 3), ("undef:@1:p", 4), ("undef:@1:q", 5), ("q", 7), ("undef:q", 8)]

/-- The C6 counterexample session. -/
def gC6 : SatGen :=
  { ez := { nextLit := 9, frozen := gC6frozen, assumed := [] }, sigmap := id, pref := "",
    imported_signals := [], initstates := [], ignore_div_by_zero := false,
    model_undef := true }

/-- The formula signals_eq builds for (p, q, 1, -1) from `gC6`. -/
def sigC6F1 : BF := bigAnd (eqBits [2] [4] [3] [5])

/-- The formula signals_eq builds for (q, p, -1, 1) from `gC6`. -/
def sigC6F2 : BF := bigAnd (eqBits [7] [8] [2] [4])

/-- The session state after the first counterexample call. -/
def sigC6g1 : SatGen :=
  { gC6 with imported_signals := [("@1:", [(SigBit.bit wP 0, 2), (SigBit.bit wQ 0, 3)]), ("undef:@1:", [(SigBit.bit wP 0, 4), (SigBit.bit wQ 0, 5)])] }

/-- The session state after the second counterexample call. -/
def sigC6g2 : SatGen :=
  { gC6 with imported_signals := [("", [(SigBit.bit wQ 0, 7)]), ("@1:", [(SigBit.bit wP 0, 2)]), ("undef:", [(SigBit.bit wQ 0, 8)]), ("undef:@1:", [(SigBit.bit wP 0, 4)])] }

/-- Counterexample to C6 as stated: with timesteps (1, -1), the negative
right timestep is normalized to the left one, so signals_eq(p, q, 1, -1)
compares both bits at timestep 1 while signals_eq(q, p, -1, 1) compares q at
the combinational scope against p at timestep 1 — the two formulas are not
logically equivalent. -/
theorem signals_eq_not_symmetric_mixed_timesteps :
    signals_eq gC6 [SigBit.bit wP 0] [SigBit.bit wQ 0] 1 (-1) = some (sigC6F1, sigC6g1) ∧
    signals_eq gC6 [SigBit.bit wQ 0] [SigBit.bit wP 0] (-1) 1 = some (sigC6F2, sigC6g2) ∧
    sigC6F1.eval (fun n => n == 2 || n == 3) = true ∧
    sigC6F2.eval (fun n => n == 2 || n == 3) = false := by
  refine ⟨?_, ?_, rfl, rfl⟩
  · rfl
  · rfl

/-- A session with both operand bits imported at the combinational scope,
used by the C6 witness. -/
def gSym : SatGen :=
  { ez := { nextLit := 9, frozen := [("p", 2), ("q", 3), ("undef:p", 4), ("undef:q", 5)], assumed := [] }, sigmap := id, pref := "",
    imported_signals := [], initstates := [], ignore_div_by_zero := false,
    model_undef := true }

/-- Witness for C6 at a concrete imported session and equal timesteps. -/
theorem signals_eq_symmetric_witness :
    gSym.model_undef = true ∧
    ([SigBit.bit wP 0] : SigSpec).length = ([SigBit.bit wQ 0] : SigSpec).length ∧
    (-1 : Int) ≠ 0 ∧ ((-1 : Int) = -1 ∨ ((0 : Int) < -1 ∧ (0 : Int) < -1)) ∧
    (∃ F1 g1 F2 g2,
      signals_eq gSym [SigBit.bit wP 0] [SigBit.bit wQ 0] (-1) (-1) = some (F1, g1) ∧
      signals_eq gSym [SigBit.bit wQ 0] [SigBit.bit wP 0] (-1) (-1) = some (F2, g2) ∧
      (∀ f, F1.eval f = F2.eval f) ∧
      (∀ f, F1.eval f =
        eqSemB f
          ((([SigBit.bit wP 0] : SigSpec).map gSym.sigmap).map
            (litOfBit gSym.ez (gSym.pref ++ tsName (-1)) false))
          ((([SigBit.bit wP 0] : SigSpec).map gSym.sigmap).map
            (litOfBit gSym.ez ("undef:" ++ gSym.pref ++ tsName (-1)) true))
          ((([SigBit.bit wQ 0] : SigSpec).map gSym.sigmap).map
            (litOfBit gSym.ez (gSym.pref ++ tsName (-1)) false))
          ((([SigBit.bit wQ 0] : SigSpec).map gSym.sigmap).map
            (litOfBit gSym.ez ("undef:" ++ gSym.pref ++ tsName (-1)) true)))) :=
  ⟨rfl, rfl, by decide, Or.inl rfl,
    signals_eq_symmetric gSym [SigBit.bit wP 0] [SigBit.bit wQ 0] (-1) (-1) rfl rfl
      (by decide) (by decide) (Or.inl rfl) (by decide) (by decide) (by decide) (by decide)⟩

/-! The equals-undefined rewrite of the miter builder (concrete module). -/

/-- The 16-bit input wire whose definedness is being checked. -/
def sigWire : SWire := { name := "\\sig", width := 16, port_input := true, port_output := false }

/-- The single-bit output wire of the comparison. -/
def yWire : SWire := { name := "\\y", width := 1, port_input := false, port_output := true }

/-- The comparison cell `(sig === 16'hxxxx)` (type `$eqx`) respectively
`(sig !== 16'hxxxx)` (type `$nex`). -/
def eqxCell (t : String) : MCell :=
  { name := "\\eqcell", ctype := t,
    conns := [("A", [SChunk.wireC "\\sig" 0 16]),
              ("B", [SChunk.constC (List.replicate 16 RState.Sx)]),
              ("Y", [SChunk.wireC "\\y" 0 1])] }

/-- The source module of C2: a single `$eqx`/`$nex` cell comparing `sig`
against a fully-undefined 16-bit constant. -/
def srcC2 (t : String) : SModule :=
  { name := "\\src", wires := [sigWire, yWire], cells := [eqxCell t], conns := [],
    nMemories := 0, nProcesses := 0 }

/-- The worker state after miter construction from `srcC2`. -/
def miterC2 (t : String) : WSt := runWorker (srcC2 t) "\\miter" false false

/-- C2: after miter construction from a module whose single cell computes
`(sig === 16'hxxxx)` (or `!==`), no `$eqx`/`$nex` cell of the miter
references the undefined constant, the miter contains a cross-copy
comparison cell between `sig` in path A and its shadow copy in path B
(with inverted polarity: `$nex` for `===`, `$eqx` for `!==`), the original
comparison cell is gone, and its output is driven by the comparison gate
identically in both paths. -/
theorem miter_x_equality_rewrite : ∀ b : Bool,
    (∀ c ∈ (miterC2 (if b then "$eqx" else "$nex")).miter.cells,
      (c.ctype = "$eqx" ∨ c.ctype = "$nex") →
        ∀ pc ∈ c.conns, ∀ bb ∈ sigBitsC pc.2, bb ≠ SigBitC.cb RState.Sx) ∧
    alookup (miterC2 (if b then "$eqx" else "$nex")).wire_map "\\sig" = some "$auto$0" ∧
    (∃ c ∈ (miterC2 (if b then "$eqx" else "$nex")).miter.cells,
      c.ctype = (if b then "$nex" else "$eqx") ∧
      getPort c "A" = [SChunk.wireC "\\sig" 0 16] ∧
      getPort c "B" = [SChunk.wireC "$auto$0" 0 16] ∧
      getPort c "Y" ≠ [SChunk.wireC "\\sig__is_x" 0 16]) ∧
    (∀ c ∈ (miterC2 (if b then "$eqx" else "$nex")).miter.cells, c.name ≠ "\\eqcell") ∧
    (∃ pr ∈ (miterC2 (if b then "$eqx" else "$nex")).miter.conns,
      pr.1 = [SChunk.wireC "\\y" 0 1] ∧
      ([SChunk.wireC "$auto$4" 0 1], pr.2) ∈ (miterC2 (if b then "$eqx" else "$nex")).miter.conns) := by
  intro b
  cases b <;> exact (by decide)

/-! The command surface: failure cases and the single new module. -/

theorem foldl_miter_name {α : Type} (f : WSt → α → WSt)
    (h : ∀ st a, (f st a).miter.name = st.miter.name) :
    ∀ (l : List α) (st : WSt), (List.foldl f st l).miter.name = st.miter.name := by
  intro l
  induction l with
  | nil => intro st; rfl
  | cons a rest ih =>
    intro st
    rw [List.foldl_cons, ih (f st a), h st a]

theorem constrainFlush_name (st : WSt) (xlen : Nat) (sa sb : SigSpecC) :
    (constrainFlush st xlen sa sb).2.miter.name = st.miter.name := by
  unfold constrainFlush
  split <;> rfl

theorem constrainData_name : ∀ (data : List RState) (st : WSt) (xlen : Nat)
    (sa sb : SigSpecC), (constrainData st data xlen sa sb).2.miter.name = st.miter.name := by
  intro data
  induction data with
  | nil => intro st xlen sa sb; exact constrainFlush_name st xlen sa sb
  | cons bit rest ih =>
    intro st xlen sa sb
    unfold constrainData
    split
    · exact ih st (xlen + 1) sa sb
    · rw [ih]
      exact constrainFlush_name st xlen sa sb

theorem constrainFold_name : ∀ (l : List SChunk) (acc : (SigSpecC × SigSpecC) × WSt),
    (List.foldl constrainStep acc l).2.miter.name = acc.2.miter.name := by
  intro l
  induction l with
  | nil => intro acc; rfl
  | cons ch rest ih =>
    intro acc
    rw [List.foldl_cons, ih]
    cases ch with
    | wireC n off w => rfl
    | constC data => exact constrainData_name data acc.2 0 acc.1.1 acc.1.2

theorem rewrite_sigspec_constrain_name (st : WSt) (sig : SigSpecC) :
    (rewrite_sigspec_constrain st sig).2.miter.name = st.miter.name :=
  constrainFold_name sig ((([] : SigSpecC), ([] : SigSpecC)), st)

theorem convert_x_equality_name (st : WSt) (cell : MCell) :
    (convert_x_equality st cell).miter.name = st.miter.name := by
  simp only [convert_x_equality]
  repeat' split
  all_goals rfl

theorem copyCell_name (optCA : Bool) (st : WSt) (cell : MCell) :
    (copyCell optCA st cell).miter.name = st.miter.name := by
  unfold copyCell
  split
  · rw [foldl_miter_name]
    · rfl
    · intro st2 pc
      unfold copyStepCA
      rw [show ∀ m : SModule, (updateCellPort m (label_b cell.name) pc.1
          (rewrite_sigspec_constrain st2 pc.2).1.2).name = m.name from fun m => rfl]
      rw [show ∀ m : SModule, (updateCellPort m cell.name pc.1
          (rewrite_sigspec_constrain st2 pc.2).1.1).name = m.name from fun m => rfl]
      exact rewrite_sigspec_constrain_name st2 pc.2
  · rw [foldl_miter_name]
    · rfl
    · intro st2 pc
      rfl

theorem processWire_name (ci ca : Bool) (st : WSt) (w : SWire) :
    (processWire ci ca st w).miter.name = st.miter.name := by
  simp only [processWire, add_x_wire]
  repeat' split
  all_goals rfl

theorem processCell_name (ca : Bool) (st : WSt) (cell : MCell) :
    (processCell ca st cell).miter.name = st.miter.name := by
  simp only [processCell]
  repeat' split
  all_goals first
    | rfl
    | exact convert_x_equality_name _ cell
    | exact copyCell_name ca _ cell

theorem processConn_name (ca : Bool) (st : WSt) (conn : SigSpecC × SigSpecC) :
    (processConn ca st conn).miter.name = st.miter.name := by
  unfold processConn
  split
  · rw [show ∀ s : WSt, (connectW s (rewrite_sigspec s conn.1)
      (rewrite_sigspec_constrain st conn.2).1.2).miter.name = s.miter.name from fun s => rfl]
    rw [show ∀ s : WSt, (connectW s conn.1
      (rewrite_sigspec_constrain st conn.2).1.1).miter.name = s.miter.name from fun s => rfl]
    exact rewrite_sigspec_constrain_name st conn.2
  · rfl

theorem processUndriven_name (st : WSt) (ch : String × Nat × Nat) :
    (processUndriven st ch).miter.name = st.miter.name := by
  simp only [processUndriven]
  split <;> rfl

theorem runWorker_name (src : SModule) (n : String) (ci ca : Bool) :
    (runWorker src n ci ca).miter.name = n := by
  unfold runWorker
  rw [show ∀ st : WSt, ({ st with miter := { st.miter with conns := st.new_conns } } : WSt).miter.name = st.miter.name from fun st => rfl]
  split
  · rw [foldl_miter_name processUndriven processUndriven_name,
      foldl_miter_name (processConn ca) (processConn_name ca),
      foldl_miter_name (processCell ca) (processCell_name ca),
      foldl_miter_name (processWire ci ca) (processWire_name ci ca)]
  · rw [foldl_miter_name (processConn ca) (processConn_name ca),
      foldl_miter_name (processCell ca) (processCell_name ca),
      foldl_miter_name (processWire ci ca) (processWire_name ci ca)]

/-- C9: the miter-construction command fails with a user-facing error exactly
when the source module does not exist, the destination module already
exists, or the source module still contains memories or unlowered processes
(the checks run before the destination module is created, so no partial
module is left behind); otherwise it adds exactly one new module, named
after the destination. -/
theorem executeSP_errors (design : List SModule) (ci ca : Bool) (sn dn : String) :
    ((∃ e, executeSP design ci ca sn dn = Except.error e) ↔
      (design.find? (fun m => m.name == escape_id sn) = none ∨
       (design.find? (fun m => m.name == escape_id dn)).isSome = true ∨
       (∃ src, design.find? (fun m => m.name == escape_id sn) = some src ∧
          (src.nMemories ≠ 0 ∨ src.nProcesses ≠ 0)))) ∧
    (∀ ds, executeSP design ci ca sn dn = Except.ok ds →
      ∃ m, ds = design ++ [m] ∧ m.name = escape_id dn) := by
  constructor
  · constructor
    · rintro ⟨e, he⟩
      unfold executeSP at he
      split at he
      · rename_i hf
        exact Or.inl hf
      · rename_i src hf
        split at he
        · rename_i hd
          exact Or.inr (Or.inl hd)
        · split at he
          · rename_i hd hm
            exact Or.inr (Or.inr ⟨src, hf, hm⟩)
          · cases he
    · intro h
      rcases h with h | h | ⟨src, hsrc, hcond⟩
      · exact ⟨"Can't find source module " ++ sn ++ ".", by unfold executeSP; rw [h]⟩
      · cases hf : design.find? (fun m => m.name == escape_id sn) with
        | none =>
          exact ⟨"Can't find source module " ++ sn ++ ".", by unfold executeSP; rw [hf]⟩
        | some src =>
          exact ⟨"Miter module " ++ dn ++ " already exists.",
            by unfold executeSP; rw [hf]; simp [h]⟩
      · by_cases hd : (design.find? (fun m => m.name == escape_id dn)).isSome = true
        · exact ⟨"Miter module " ++ dn ++ " already exists.",
            by unfold executeSP; rw [hsrc]; simp [hd]⟩
        · exact ⟨"Source module contains memories or processes. Run memory or proc respectively.",
            by unfold executeSP; rw [hsrc]; simp [hd, hcond]⟩
  · intro ds hds
    unfold executeSP at hds
    split at hds
    · cases hds
    · rename_i src hf
      split at hds
      · cases hds
      · split at hds
        · cases hds
        · exact ⟨(runWorker src (escape_id dn) ci ca).miter,
            (Except.ok.inj hds).symm, runWorker_name src (escape_id dn) ci ca⟩

/-- Witness for C9: on the empty design the command reports a missing source
module, and on a design holding one trivial module it adds exactly the new
miter module. -/
theorem executeSP_errors_witness :
    (∃ e, executeSP [] false false "a" "b" = Except.error e) ∧
    (∀ ds, executeSP [srcC2 "$eqx"] false false "src" "m2" = Except.ok ds →
      ∃ m, ds = [srcC2 "$eqx"] ++ [m] ∧ m.name = escape_id "m2") :=
  ⟨(executeSP_errors [] false false "a" "b").1.mpr (Or.inl rfl),
   (executeSP_errors [srcC2 "$eqx"] false false "src" "m2").2⟩

/-! Constrain-undef mode: duplicated comparison cells and shared
nondeterministic sources for undefined constant runs. -/

/-- Whether a name is auto-generated by NEW_ID (carries the reserved
machine-name marker used by the model). -/
def strIsAuto (s : String) : Bool :=
  decide (s.data.take 6 = ("$auto$").data)

theorem strIsAuto_append (s : String) : strIsAuto ("$auto$" ++ s) = true := rfl

theorem sigBitsC_append (a b : SigSpecC) : sigBitsC (a ++ b) = sigBitsC a ++ sigBitsC b := by
  simp [sigBitsC]

/-- The shape of one rewritten constant chunk in constrain-undef mode: each
maximal run of undefined bits becomes the bits of one fresh wire driven by an
auto-generated `$anyseq` cell of the given cell list, and every other
constant bit is kept. -/
inductive DataRel (cells : List MCell) : List RState → List SigBitC → Prop
  | nil : DataRel cells [] []
  | xrun (n : String) (k : Nat) (rest : List RState) (t : List SigBitC)
      (hk : 0 < k)
      (hmax : rest.head? ≠ some RState.Sx)
      (hcell : ∃ c ∈ cells, strIsAuto c.name = true ∧ c.ctype = "$anyseq" ∧
        getPort c "Y" = [SChunk.wireC n 0 k])
      (hrest : DataRel cells rest t) :
      DataRel cells (List.replicate k RState.Sx ++ rest)
        (chunkBits (SChunk.wireC n 0 k) ++ t)
  | keep (v : RState) (rest : List RState) (t : List SigBitC)
      (hv : v ≠ RState.Sx) (hrest : DataRel cells rest t) :
      DataRel cells (v :: rest) (SigBitC.cb v :: t)

/-- The bitwise relation between a signal and the two outputs of the
constrain rewrite: wire chunks keep their bits in path A and take the
shadow-mapped wire in path B, while constant chunks produce the same bit
list in both paths, with undefined runs replaced per `DataRel`. -/
inductive SpecRel (cells : List MCell) (wm : List (String × String)) :
    SigSpecC → List SigBitC → List SigBitC → Prop
  | nil : SpecRel cells wm [] [] []
  | wire (n : String) (off w : Nat) (rest : SigSpecC) (ta tb : List SigBitC)
      (hrest : SpecRel cells wm rest ta tb) :
      SpecRel cells wm (SChunk.wireC n off w :: rest)
        (chunkBits (SChunk.wireC n off w) ++ ta)
        (chunkBits (SChunk.wireC ((alookup wm n).getD n) off w) ++ tb)
  | cdata (data : List RState) (rest : SigSpecC) (t ta tb : List SigBitC)
      (hd : DataRel cells data t) (hrest : SpecRel cells wm rest ta tb) :
      SpecRel cells wm (SChunk.constC data :: rest) (t ++ ta) (t ++ tb)

/-- Cell-list extension that keeps every auto-generated `$anyseq` cell. -/
def AnyseqPres (cs cs2 : List MCell) : Prop :=
  ∀ c ∈ cs, strIsAuto c.name = true → c.ctype = "$anyseq" → c ∈ cs2

theorem anyseqPres_refl (cs : List MCell) : AnyseqPres cs cs := fun c hc _ _ => hc

theorem anyseqPres_trans {c1 c2 c3 : List MCell} (h1 : AnyseqPres c1 c2)
    (h2 : AnyseqPres c2 c3) : AnyseqPres c1 c3 :=
  fun c hc ha hy => h2 c (h1 c hc ha hy) ha hy

theorem dataRel_mono {c1 c2 : List MCell} (h : AnyseqPres c1 c2) {d : List RState}
    {t : List SigBitC} (hd : DataRel c1 d t) : DataRel c2 d t := by
  induction hd with
  | nil => exact DataRel.nil
  | xrun n k rest t hk hmax hcell _ ih =>
    obtain ⟨c, hc, ha, hy, hp⟩ := hcell
    exact DataRel.xrun n k rest t hk hmax ⟨c, h c hc ha hy, ha, hy, hp⟩ ih
  | keep v rest t hv _ ih => exact DataRel.keep v rest t hv ih

theorem specRel_mono {c1 c2 : List MCell} (h : AnyseqPres c1 c2)
    {wm : List (String × String)} {s : SigSpecC} {ta tb : List SigBitC}
    (hs : SpecRel c1 wm s ta tb) : SpecRel c2 wm s ta tb := by
  induction hs with
  | nil => exact SpecRel.nil
  | wire n off w rest ta tb _ ih => exact SpecRel.wire n off w rest ta tb ih
  | cdata data rest t ta tb hd _ ih =>
    exact SpecRel.cdata data rest t ta tb (dataRel_mono h hd) ih

/-- The fresh wire chunk an `Anyseq` call at counter value `fresh` returns. -/
def anyseqWireAt (fresh width : Nat) : SChunk :=
  SChunk.wireC ("$auto$" ++ toString fresh) 0 width

/-- The `$anyseq` cell an `Anyseq` call at counter value `fresh` adds. -/
def anyseqCellAt (fresh width : Nat) : MCell :=
  { name := "$auto$" ++ toString (fresh + 1), ctype := "$anyseq",
    conns := [("Y", [anyseqWireAt fresh width])] }

theorem anyseqW_eq (st : WSt) (width : Nat) :
    anyseqW st width = ([anyseqWireAt st.fresh width],
      { st with fresh := st.fresh + 2,
                miter := { st.miter with
                  wires := st.miter.wires ++ [{ name := "$auto$" ++ toString st.fresh, width := width, port_input := false, port_output := false }],
                  cells := st.miter.cells ++ [anyseqCellAt st.fresh width] } }) := by
  simp [anyseqW, newId, addWireW, addCellW, wireSig, anyseqWireAt, anyseqCellAt]

theorem constrainData_spec : ∀ (data : List RState) (st : WSt) (xlen : Nat)
    (sa sb : SigSpecC),
    ∃ t newCells,
      sigBitsC (constrainData st data xlen sa sb).1.1 = sigBitsC sa ++ t ∧
      sigBitsC (constrainData st data xlen sa sb).1.2 = sigBitsC sb ++ t ∧
      DataRel (constrainData st data xlen sa sb).2.miter.cells
        (List.replicate xlen RState.Sx ++ data) t ∧
      (constrainData st data xlen sa sb).2.miter.cells = st.miter.cells ++ newCells ∧
      (∀ c ∈ newCells, strIsAuto c.name = true ∧ c.ctype = "$anyseq") ∧
      (constrainData st data xlen sa sb).2.wire_map = st.wire_map ∧
      (constrainData st data xlen sa sb).2.new_conns = st.new_conns ∧
      (constrainData st data xlen sa sb).2.miter.conns = st.miter.conns := by
  intro data
  induction data with
  | nil =>
    intro st xlen sa sb
    cases xlen with
    | zero =>
      refine ⟨[], [], ?_, ?_, ?_, ?_, ?_, ?_, ?_, ?_⟩ <;>
        simp [constrainData, constrainFlush, DataRel.nil]
    | succ m =>
      have hred : constrainData st [] (m + 1) sa sb =
          ((sa ++ [anyseqWireAt st.fresh (m + 1)], sb ++ [anyseqWireAt st.fresh (m + 1)]),
            (anyseqW st (m + 1)).2) := by
        simp [constrainData, constrainFlush, anyseqW_eq]
      refine ⟨chunkBits (anyseqWireAt st.fresh (m + 1)), [anyseqCellAt st.fresh (m + 1)],
        ?_, ?_, ?_, ?_, ?_, ?_, ?_, ?_⟩ <;> try rw [hred]
      · simp [sigBitsC_append, sigBitsC, anyseqWireAt]
      · simp [sigBitsC_append, sigBitsC, anyseqWireAt]
      · have hx := @DataRel.xrun (anyseqW st (m + 1)).2.miter.cells
          ("$auto$" ++ toString st.fresh) (m + 1) [] [] (Nat.succ_pos m) (by simp)
          ⟨anyseqCellAt st.fresh (m + 1),
            by rw [anyseqW_eq]; simp,
            strIsAuto_append _, rfl, rfl⟩ DataRel.nil
        simpa [anyseqWireAt] using hx
      · rw [anyseqW_eq]
      · intro c hc
        rw [List.mem_singleton] at hc
        subst hc
        exact ⟨strIsAuto_append _, rfl⟩
      · rw [anyseqW_eq]
      · rw [anyseqW_eq]
      · rw [anyseqW_eq]
  | cons v rest ih =>
    intro st xlen sa sb
    by_cases hv : v = RState.Sx
    · subst hv
      have hred : constrainData st (RState.Sx :: rest) xlen sa sb =
          constrainData st rest (xlen + 1) sa sb := by
        simp [constrainData]
      obtain ⟨t, newCells, h1, h2, h3, h4, h5, h6, h7, h8⟩ := ih st (xlen + 1) sa sb
      refine ⟨t, newCells, ?_, ?_, ?_, ?_, h5, ?_, ?_, ?_⟩ <;> rw [hred]
      · exact h1
      · exact h2
      · have hl : List.replicate xlen RState.Sx ++ (RState.Sx :: rest) =
            List.replicate (xlen + 1) RState.Sx ++ rest := by
          rw [List.replicate_succ']
          simp
        rw [hl]
        exact h3
      · exact h4
      · exact h6
      · exact h7
      · exact h8
    · cases hx : xlen with
      | zero =>
        have hred : constrainData st (v :: rest) 0 sa sb =
            constrainData st rest 0 (sa ++ [SChunk.constC [v]]) (sb ++ [SChunk.constC [v]]) := by
          simp [constrainData, constrainFlush, hv]
        obtain ⟨t, newCells, h1, h2, h3, h4, h5, h6, h7, h8⟩ :=
          ih st 0 (sa ++ [SChunk.constC [v]]) (sb ++ [SChunk.constC [v]])
        refine ⟨SigBitC.cb v :: t, newCells, ?_, ?_, ?_, ?_, h5, ?_, ?_, ?_⟩ <;> rw [hred]
        · rw [h1, sigBitsC_append]
          simp [sigBitsC, chunkBits]
        · rw [h2, sigBitsC_append]
          simp [sigBitsC, chunkBits]
        · simp only [List.replicate, List.nil_append]
          refine DataRel.keep v rest t hv ?_
          simpa using h3
        · exact h4
        · exact h6
        · exact h7
        · exact h8
      | succ m =>
        have hred : constrainData st (v :: rest) (m + 1) sa sb =
            constrainData (anyseqW st (m + 1)).2 rest 0
              ((sa ++ [anyseqWireAt st.fresh (m + 1)]) ++ [SChunk.constC [v]])
              ((sb ++ [anyseqWireAt st.fresh (m + 1)]) ++ [SChunk.constC [v]]) := by
          simp [constrainData, constrainFlush, hv, anyseqW_eq]
        obtain ⟨t, newCells, h1, h2, h3, h4, h5, h6, h7, h8⟩ :=
          ih (anyseqW st (m + 1)).2 0
            ((sa ++ [anyseqWireAt st.fresh (m + 1)]) ++ [SChunk.constC [v]])
            ((sb ++ [anyseqWireAt st.fresh (m + 1)]) ++ [SChunk.constC [v]])
        have hcells2 : (anyseqW st (m + 1)).2.miter.cells =
            st.miter.cells ++ [anyseqCellAt st.fresh (m + 1)] := by
          rw [anyseqW_eq]
        refine ⟨chunkBits (anyseqWireAt st.fresh (m + 1)) ++ (SigBitC.cb v :: t),
          anyseqCellAt st.fresh (m + 1) :: newCells, ?_, ?_, ?_, ?_, ?_, ?_, ?_, ?_⟩ <;>
          try rw [hred]
        · rw [h1]
          simp [sigBitsC_append, sigBitsC, chunkBits]
        · rw [h2]
          simp [sigBitsC_append, sigBitsC, chunkBits]
        · have hx2 := @DataRel.xrun (constrainData (anyseqW st (m + 1)).2 rest 0
              ((sa ++ [anyseqWireAt st.fresh (m + 1)]) ++ [SChunk.constC [v]])
              ((sb ++ [anyseqWireAt st.fresh (m + 1)]) ++ [SChunk.constC [v]])).2.miter.cells
            ("$auto$" ++ toString st.fresh) (m + 1) (v :: rest) (SigBitC.cb v :: t)
            (Nat.succ_pos m) (by simp [hv]) ?_ ?_
          · simpa [anyseqWireAt] using hx2
          · refine ⟨anyseqCellAt st.fresh (m + 1), ?_, strIsAuto_append _, rfl, rfl⟩
            rw [h4, hcells2, List.append_assoc]
            exact List.mem_append_right _ (List.mem_append_left _ (List.mem_singleton.mpr rfl))
          · refine DataRel.keep v rest t hv ?_
            simpa using h3
        · rw [h4, hcells2, List.append_assoc]
          rfl
        · intro c hc
          rw [List.mem_cons] at hc
          rcases hc with hc | hc
          · subst hc
            exact ⟨strIsAuto_append _, rfl⟩
          · exact h5 c hc
        · rw [h6, anyseqW_eq]
        · rw [h7, anyseqW_eq]
        · rw [h8, anyseqW_eq]

theorem alookup_ainsert_self {α β : Type} [DecidableEq α] (l : List (α × β)) (k : α) (v : β) :
    alookup (ainsert l k v) k = some v := by
  induction l with
  | nil => simp [ainsert, alookup]
  | cons p rest ih =>
    by_cases h : p.1 = k
    · simp [ainsert, alookup, h]
    · obtain ⟨k0, v0⟩ := p
      simp only at h
      simp [ainsert, alookup, h, ih]

theorem alookup_ainsert_ne {α β : Type} [DecidableEq α] (l : List (α × β)) (k q : α) (v : β)
    (h : q ≠ k) : alookup (ainsert l k v) q = alookup l q := by
  have hkq : ¬ (k = q) := fun hh => h hh.symm
  induction l with
  | nil => simp [ainsert, alookup, hkq]
  | cons p rest ih =>
    obtain ⟨k0, v0⟩ := p
    by_cases h0 : k0 = k
    · subst h0
      simp only [ainsert, if_pos rfl, alookup, if_neg hkq]
    · simp only [ainsert, if_neg h0, alookup]
      split
      · rfl
      · exact ih

theorem getPort_setPort_self (c : MCell) (p : String) (v : SigSpecC) :
    getPort (setPort c p v) p = v := by
  simp [getPort, setPort, alookup_ainsert_self]

theorem getPort_setPort_ne (c : MCell) (p q : String) (v : SigSpecC) (h : q ≠ p) :
    getPort (setPort c p v) q = getPort c q := by
  simp [getPort, setPort, alookup_ainsert_ne _ _ _ _ h]

theorem sigBitsC_nil : sigBitsC [] = [] := rfl

/-- Every cell list extends to its append by any tail, keeping anyseq cells. -/
theorem anyseqPres_append (cs e : List MCell) : AnyseqPres cs (cs ++ e) :=
  fun c hc _ _ => List.mem_append_left _ hc

theorem constrainFold_spec : ∀ (sig : SigSpecC) (acc : (SigSpecC × SigSpecC) × WSt),
    ∃ ta tb newCells,
      sigBitsC (sig.foldl constrainStep acc).1.1 = sigBitsC acc.1.1 ++ ta ∧
      sigBitsC (sig.foldl constrainStep acc).1.2 = sigBitsC acc.1.2 ++ tb ∧
      SpecRel (sig.foldl constrainStep acc).2.miter.cells acc.2.wire_map sig ta tb ∧
      (sig.foldl constrainStep acc).2.miter.cells = acc.2.miter.cells ++ newCells ∧
      (∀ c ∈ newCells, strIsAuto c.name = true ∧ c.ctype = "$anyseq") ∧
      (sig.foldl constrainStep acc).2.wire_map = acc.2.wire_map ∧
      (sig.foldl constrainStep acc).2.new_conns = acc.2.new_conns ∧
      (sig.foldl constrainStep acc).2.miter.conns = acc.2.miter.conns := by
  intro sig
  induction sig with
  | nil =>
    intro acc
    exact ⟨[], [], [], by simp, by simp, SpecRel.nil, by simp, by simp, rfl, rfl, rfl⟩
  | cons ch rest ih =>
    intro acc
    rw [List.foldl_cons]
    obtain ⟨ta, tb, nc, h1, h2, h3, h4, h5, h6, h7, h8⟩ := ih (constrainStep acc ch)
    cases ch with
    | wireC n off w =>
      have hstep : constrainStep acc (SChunk.wireC n off w) =
          ((acc.1.1 ++ [SChunk.wireC n off w],
            acc.1.2 ++ [SChunk.wireC ((alookup acc.2.wire_map n).getD n) off w]), acc.2) := rfl
      refine ⟨chunkBits (SChunk.wireC n off w) ++ ta,
        chunkBits (SChunk.wireC ((alookup acc.2.wire_map n).getD n) off w) ++ tb, nc,
        ?_, ?_, ?_, ?_, h5, ?_, ?_, ?_⟩
      · rw [h1, hstep, sigBitsC_append]
        simp [sigBitsC, List.append_assoc]
      · rw [h2, hstep, sigBitsC_append]
        simp [sigBitsC, List.append_assoc]
      · have hwm : (constrainStep acc (SChunk.wireC n off w)).2.wire_map = acc.2.wire_map := by
          rw [hstep]
        rw [hwm] at h3
        exact SpecRel.wire n off w rest ta tb h3
      · rw [h4, hstep]
      · rw [h6, hstep]
      · rw [h7, hstep]
      · rw [h8, hstep]
    | constC data =>
      have hstep : constrainStep acc (SChunk.constC data) =
          constrainData acc.2 data 0 acc.1.1 acc.1.2 := rfl
      obtain ⟨t, ncd, g1, g2, g3, g4, g5, g6, g7, g8⟩ :=
        constrainData_spec data acc.2 0 acc.1.1 acc.1.2
      rw [hstep] at h1 h2 h3 h4 h6 h7 h8
      rw [hstep]
      refine ⟨t ++ ta, t ++ tb, ncd ++ nc, ?_, ?_, ?_, ?_, ?_, ?_, ?_, ?_⟩
      · rw [h1, g1, List.append_assoc]
      · rw [h2, g2, List.append_assoc]
      · rw [g6] at h3
        refine SpecRel.cdata data rest t ta tb ?_ h3
        have hdr : DataRel (constrainData acc.2 data 0 acc.1.1 acc.1.2).2.miter.cells data t := by
          simpa using g3
        refine dataRel_mono ?_ hdr
        rw [h4]
        exact anyseqPres_append _ _
      · rw [h4, g4, List.append_assoc]
      · intro c hc
        rw [List.mem_append] at hc
        rcases hc with hc | hc
        · exact g5 c hc
        · exact h5 c hc
      · rw [h6, g6]
      · rw [h7, g7]
      · rw [h8, g8]

/-- The per-cell action of `updateCellPort`: set the port on cells carrying
the given name, leave every other cell alone. -/
def updC (nm p : String) (v : SigSpecC) (a : MCell) : MCell :=
  if a.name = nm then setPort a p v else a

theorem updC_name (nm p : String) (v : SigSpecC) (a : MCell) :
    (updC nm p v a).name = a.name := by
  unfold updC; split <;> rfl

theorem updC_ctype (nm p : String) (v : SigSpecC) (a : MCell) :
    (updC nm p v a).ctype = a.ctype := by
  unfold updC; split <;> rfl

theorem updC_getPort_ne (nm p q : String) (v : SigSpecC) (a : MCell) (h : q ≠ p) :
    getPort (updC nm p v a) q = getPort a q := by
  unfold updC; split
  · exact getPort_setPort_ne _ _ _ _ h
  · rfl

theorem updC_id (nm p : String) (v : SigSpecC) (a : MCell) (h : ¬ (a.name = nm)) :
    updC nm p v a = a := if_neg h

theorem updC_getPort_hit (nm p : String) (v : SigSpecC) (a : MCell) (h : a.name = nm) :
    getPort (updC nm p v a) p = v := by
  unfold updC; rw [if_pos h]; exact getPort_setPort_self _ _ _

theorem copyStepCA_cells (cname bname p : String) (s : SigSpecC) (acc : WSt) :
    (copyStepCA cname bname acc (p, s)).miter.cells =
      ((rewrite_sigspec_constrain acc s).2.miter.cells.map
        (updC cname p (rewrite_sigspec_constrain acc s).1.1)).map
        (updC bname p (rewrite_sigspec_constrain acc s).1.2) := rfl

theorem copyFoldCA_spec (cname bname : String)
    (hcn : strIsAuto cname = false) (hbn : strIsAuto bname = false)
    (hne : cname ≠ bname) :
    ∀ (l : List (String × SigSpecC)) (acc : WSt),
    (l.map Prod.fst).Nodup →
    ((l.foldl (copyStepCA cname bname) acc).wire_map = acc.wire_map ∧
     (l.foldl (copyStepCA cname bname) acc).new_conns = acc.new_conns ∧
     (l.foldl (copyStepCA cname bname) acc).miter.conns = acc.miter.conns) ∧
    AnyseqPres acc.miter.cells (l.foldl (copyStepCA cname bname) acc).miter.cells ∧
    (∀ c ∈ acc.miter.cells, ∃ c2 ∈ (l.foldl (copyStepCA cname bname) acc).miter.cells,
      c2.name = c.name ∧ c2.ctype = c.ctype) ∧
    (∀ c2 ∈ (l.foldl (copyStepCA cname bname) acc).miter.cells,
      (∃ c ∈ acc.miter.cells, c2.name = c.name ∧ c2.ctype = c.ctype) ∨
      (strIsAuto c2.name = true ∧ c2.ctype = "$anyseq")) ∧
    (∀ nm q v, (nm = cname ∨ nm = bname) → q ∉ l.map Prod.fst →
      (∀ c ∈ acc.miter.cells, c.name = nm → getPort c q = v) →
      ∀ c2 ∈ (l.foldl (copyStepCA cname bname) acc).miter.cells,
        c2.name = nm → getPort c2 q = v) ∧
    (∀ ps ∈ l, ∃ ta tb, SpecRel (l.foldl (copyStepCA cname bname) acc).miter.cells
        acc.wire_map ps.2 ta tb ∧
      (∀ c2 ∈ (l.foldl (copyStepCA cname bname) acc).miter.cells,
        c2.name = cname → sigBitsC (getPort c2 ps.1) = ta) ∧
      (∀ c2 ∈ (l.foldl (copyStepCA cname bname) acc).miter.cells,
        c2.name = bname → sigBitsC (getPort c2 ps.1) = tb)) := by
  intro l
  induction l with
  | nil =>
    intro acc _
    refine ⟨⟨rfl, rfl, rfl⟩, anyseqPres_refl _, ?_, ?_, ?_, ?_⟩
    · exact fun c hc => ⟨c, hc, rfl, rfl⟩
    · exact fun c2 hc2 => Or.inl ⟨c2, hc2, rfl, rfl⟩
    · exact fun nm q v _ _ hv => hv
    · intro ps hps
      exact absurd hps (List.not_mem_nil ps)
  | cons hd l2 ih =>
    obtain ⟨p, s⟩ := hd
    intro acc hnd
    rw [List.map_cons] at hnd
    obtain ⟨hp, hnd2⟩ := List.nodup_cons.mp hnd
    rw [List.foldl_cons]
    obtain ⟨⟨i1, i2, i3⟩, i4, i5, i6, i7, i8⟩ := ih (copyStepCA cname bname acc (p, s)) hnd2
    obtain ⟨ta0, tb0, nc0, f1, f2, f3, f4, f5, f6, f7, f8⟩ :=
      constrainFold_spec s (([], []), acc)
    have f1r : sigBitsC (rewrite_sigspec_constrain acc s).1.1 = ta0 := f1
    have f2r : sigBitsC (rewrite_sigspec_constrain acc s).1.2 = tb0 := f2
    have f3r : SpecRel (rewrite_sigspec_constrain acc s).2.miter.cells acc.wire_map s ta0 tb0 := f3
    have f4r : (rewrite_sigspec_constrain acc s).2.miter.cells = acc.miter.cells ++ nc0 := f4
    have hmwm : (copyStepCA cname bname acc (p, s)).wire_map = acc.wire_map := f6
    have hmnc : (copyStepCA cname bname acc (p, s)).new_conns = acc.new_conns := f7
    have hmconns : (copyStepCA cname bname acc (p, s)).miter.conns = acc.miter.conns := f8
    have hdecomp : ∀ c ∈ (copyStepCA cname bname acc (p, s)).miter.cells,
        ∃ a0 ∈ acc.miter.cells ++ nc0,
          c = updC bname p (rewrite_sigspec_constrain acc s).1.2
                (updC cname p (rewrite_sigspec_constrain acc s).1.1 a0) := by
      intro c hc
      rw [copyStepCA_cells, f4r] at hc
      obtain ⟨a1, ha1, heq1⟩ := List.mem_map.mp hc
      obtain ⟨a0, ha0, heq0⟩ := List.mem_map.mp ha1
      exact ⟨a0, ha0, by rw [← heq1, ← heq0]⟩
    have hbuild : ∀ a0 ∈ acc.miter.cells ++ nc0,
        updC bname p (rewrite_sigspec_constrain acc s).1.2
          (updC cname p (rewrite_sigspec_constrain acc s).1.1 a0) ∈
          (copyStepCA cname bname acc (p, s)).miter.cells := by
      intro a0 ha0
      rw [copyStepCA_cells, f4r]
      exact List.mem_map.mpr ⟨_, List.mem_map.mpr ⟨a0, ha0, rfl⟩, rfl⟩
    have hauto_ne : ∀ nm, strIsAuto nm = false → ∀ a : MCell, strIsAuto a.name = true →
        ¬ (a.name = nm) := by
      intro nm hnm a ha h
      rw [h, hnm] at ha
      exact absurd ha (by decide)
    have hpresStep : AnyseqPres acc.miter.cells (copyStepCA cname bname acc (p, s)).miter.cells := by
      intro c hc ha hy
      have hcname := hauto_ne cname hcn c ha
      have hbname := hauto_ne bname hbn c ha
      have := hbuild c (List.mem_append_left _ hc)
      rwa [updC_id _ _ _ _ hcname, updC_id _ _ _ _ hbname] at this
    refine ⟨⟨by rw [i1, hmwm], by rw [i2, hmnc], by rw [i3, hmconns]⟩,
      anyseqPres_trans hpresStep i4, ?_, ?_, ?_, ?_⟩
    · intro c hc
      obtain ⟨c2, hc2, hn, ht⟩ := i5 _ (hbuild c (List.mem_append_left _ hc))
      exact ⟨c2, hc2, by rw [hn, updC_name, updC_name], by rw [ht, updC_ctype, updC_ctype]⟩
    · intro c2 hc2
      rcases i6 c2 hc2 with ⟨c1, hc1, hn, ht⟩ | hauto
      · obtain ⟨a0, ha0, heq⟩ := hdecomp c1 hc1
        have hn0 : c2.name = a0.name := by rw [hn, heq, updC_name, updC_name]
        have ht0 : c2.ctype = a0.ctype := by rw [ht, heq, updC_ctype, updC_ctype]
        rcases List.mem_append.mp ha0 with ha0 | ha0
        · exact Or.inl ⟨a0, ha0, hn0, ht0⟩
        · obtain ⟨hau, hty⟩ := f5 a0 ha0
          exact Or.inr ⟨by rw [hn0]; exact hau, by rw [ht0]; exact hty⟩
      · exact Or.inr hauto
    · intro nm q v hnm hq hv
      rw [List.map_cons, List.mem_cons] at hq
      push_neg at hq
      obtain ⟨hqp, hql2⟩ := hq
      have hnmauto : strIsAuto nm = false := by
        rcases hnm with rfl | rfl
        · exact hcn
        · exact hbn
      refine i7 nm q v hnm hql2 ?_
      intro c hc hcnm
      obtain ⟨a0, ha0, heq⟩ := hdecomp c hc
      have hn0 : a0.name = nm := by rw [← hcnm, heq, updC_name, updC_name]
      have ha0acc : a0 ∈ acc.miter.cells := by
        rcases List.mem_append.mp ha0 with h | h
        · exact h
        · obtain ⟨hau, _⟩ := f5 a0 h
          exact absurd hn0 (hauto_ne nm hnmauto a0 hau)
      rw [heq, updC_getPort_ne _ _ _ _ _ hqp, updC_getPort_ne _ _ _ _ _ hqp]
      exact hv a0 ha0acc hn0
    · intro ps hps
      rcases List.mem_cons.mp hps with rfl | hps2
      · refine ⟨ta0, tb0, ?_, ?_, ?_⟩
        · refine specRel_mono (anyseqPres_trans ?_ i4) f3r
          intro c hc ha hy
          have hcname := hauto_ne cname hcn c ha
          have hbname := hauto_ne bname hbn c ha
          have := hbuild c (by rw [← f4r]; exact hc)
          rwa [updC_id _ _ _ _ hcname, updC_id _ _ _ _ hbname] at this
        · have hmidA : ∀ c ∈ (copyStepCA cname bname acc (p, s)).miter.cells,
              c.name = cname → getPort c p = (rewrite_sigspec_constrain acc s).1.1 := by
            intro c hc hcnm
            obtain ⟨a0, ha0, heq⟩ := hdecomp c hc
            have hn0 : a0.name = cname := by rw [← hcnm, heq, updC_name, updC_name]
            have hinner : updC cname p (rewrite_sigspec_constrain acc s).1.1 a0 =
                setPort a0 p (rewrite_sigspec_constrain acc s).1.1 := by
              unfold updC; rw [if_pos hn0]
            have houter : ¬ ((setPort a0 p (rewrite_sigspec_constrain acc s).1.1).name = bname) := by
              intro h
              exact hne (hn0 ▸ h)
            rw [heq, hinner, updC_id _ _ _ _ houter]
            exact getPort_setPort_self _ _ _
          intro c2 hc2 hc2nm
          rw [i7 cname p (rewrite_sigspec_constrain acc s).1.1 (Or.inl rfl) hp hmidA c2 hc2 hc2nm]
          exact f1r
        · have hmidB : ∀ c ∈ (copyStepCA cname bname acc (p, s)).miter.cells,
              c.name = bname → getPort c p = (rewrite_sigspec_constrain acc s).1.2 := by
            intro c hc hcnm
            obtain ⟨a0, ha0, heq⟩ := hdecomp c hc
            have hn0 : a0.name = bname := by rw [← hcnm, heq, updC_name, updC_name]
            have hinner : updC cname p (rewrite_sigspec_constrain acc s).1.1 a0 = a0 := by
              refine updC_id _ _ _ _ ?_
              intro h
              exact hne (h.symm.trans hn0)
            have houter : updC bname p (rewrite_sigspec_constrain acc s).1.2 a0 =
                setPort a0 p (rewrite_sigspec_constrain acc s).1.2 := by
              unfold updC; rw [if_pos hn0]
            rw [heq, hinner, houter]
            exact getPort_setPort_self _ _ _
          intro c2 hc2 hc2nm
          rw [i7 bname p (rewrite_sigspec_constrain acc s).1.2 (Or.inr rfl) hp hmidB c2 hc2 hc2nm]
          exact f2r
      · obtain ⟨ta, tb, hspec, ha, hb⟩ := i8 ps hps2
        rw [hmwm] at hspec
        exact ⟨ta, tb, hspec, ha, hb⟩

/-- C10: When the -constrain_undef option is given, `$eqx`/`$nex` comparison
cells are never rewritten into cross-copy comparisons: the cell loop takes the
ordinary copy branch, so no connection is accumulated and no cell is removed —
the original cell survives, a shadow copy under the `__b` label with the same
type appears, every other new cell is an auto-generated `$anyseq`
nondeterministic source, and each connection of both copies is rewritten so
that wire chunks keep (resp. shadow-map) their bits while each maximal run of
undefined constant bits is replaced by the bits of one shared `$anyseq`-driven
wire in both copies (`SpecRel`/`DataRel`). -/
theorem constrain_undef_copies_eqx (st : WSt) (cell : MCell)
    (hty : cell.ctype = "$eqx" ∨ cell.ctype = "$nex")
    (hmem : cell ∈ st.miter.cells)
    (hcn : strIsAuto cell.name = false)
    (hbn : strIsAuto (label_b cell.name) = false)
    (hne : cell.name ≠ label_b cell.name)
    (hnd : (cell.conns.map Prod.fst).Nodup) :
    (processCell true st cell).wire_map = st.wire_map ∧
    (processCell true st cell).new_conns = st.new_conns ∧
    (processCell true st cell).miter.conns = st.miter.conns ∧
    (∃ c1 ∈ (processCell true st cell).miter.cells,
      c1.name = cell.name ∧ c1.ctype = cell.ctype) ∧
    (∃ cb ∈ (processCell true st cell).miter.cells,
      cb.name = label_b cell.name ∧ cb.ctype = cell.ctype) ∧
    (∀ c2 ∈ (processCell true st cell).miter.cells,
      (∃ c ∈ st.miter.cells, c2.name = c.name ∧ c2.ctype = c.ctype) ∨
      (c2.name = label_b cell.name ∧ c2.ctype = cell.ctype) ∨
      (strIsAuto c2.name = true ∧ c2.ctype = "$anyseq")) ∧
    (∀ ps ∈ cell.conns, ∃ ta tb,
      SpecRel (processCell true st cell).miter.cells st.wire_map ps.2 ta tb ∧
      (∀ c2 ∈ (processCell true st cell).miter.cells,
        c2.name = cell.name → sigBitsC (getPort c2 ps.1) = ta) ∧
      (∀ c2 ∈ (processCell true st cell).miter.cells,
        c2.name = label_b cell.name → sigBitsC (getPort c2 ps.1) = tb)) := by
  have hred : processCell true st cell =
      cell.conns.foldl (copyStepCA cell.name (label_b cell.name))
        (addCellW { st with undriven := delDriven cell st.undriven }
          { name := label_b cell.name, ctype := cell.ctype, conns := cell.conns }) := by
    rcases hty with h | h <;> simp [processCell, copyCell, h]
  obtain ⟨⟨i1, i2, i3⟩, _i4, i5, i6, _i7, i8⟩ :=
    copyFoldCA_spec cell.name (label_b cell.name) hcn hbn hne cell.conns
      (addCellW { st with undriven := delDriven cell st.undriven }
        { name := label_b cell.name, ctype := cell.ctype, conns := cell.conns }) hnd
  have hcells1 : (addCellW { st with undriven := delDriven cell st.undriven }
      { name := label_b cell.name, ctype := cell.ctype, conns := cell.conns }).miter.cells =
      st.miter.cells ++ [{ name := label_b cell.name, ctype := cell.ctype, conns := cell.conns }] := rfl
  refine ⟨?_, ?_, ?_, ?_, ?_, ?_, ?_⟩ <;> rw [hred]
  · exact i1
  · exact i2
  · exact i3
  · obtain ⟨c2, hc2, hn, ht⟩ := i5 cell (by rw [hcells1]; exact List.mem_append_left _ hmem)
    exact ⟨c2, hc2, hn, ht⟩
  · obtain ⟨c2, hc2, hn, ht⟩ := i5 _
      (by rw [hcells1]; exact List.mem_append_right _ (List.mem_singleton.mpr rfl))
    exact ⟨c2, hc2, hn, ht⟩
  · intro c2 hc2
    rcases i6 c2 hc2 with ⟨c1, hc1, hn, ht⟩ | hauto
    · rw [hcells1] at hc1
      rcases List.mem_append.mp hc1 with h | h
      · exact Or.inl ⟨c1, h, hn, ht⟩
      · rw [List.mem_singleton] at h
        subst h
        exact Or.inr (Or.inl ⟨hn, ht⟩)
    · exact Or.inr (Or.inr hauto)
  · intro ps hps
    obtain ⟨ta, tb, hspec, ha, hb⟩ := i8 ps hps
    exact ⟨ta, tb, hspec, ha, hb⟩

/-- A concrete `$eqx` cell whose A port holds a run of two undefined constant
bits followed by a defined one. -/
def cellC10 : MCell :=
  { name := "\\eq", ctype := "$eqx",
    conns := [("A", [SChunk.constC [RState.Sx, RState.Sx, RState.S1]]),
              ("Y", [SChunk.wireC "\\y" 0 1])] }

/-- A concrete worker state holding only that cell. -/
def stC10 : WSt :=
  { miter := { name := "\\m", wires := [], cells := [cellC10], conns := [],
               nMemories := 0, nProcesses := 0 },
    wire_map := [("\\y", "\\y__copy")], new_conns := [], undriven := [], fresh := 0 }

theorem constrain_undef_copies_eqx_witness :
    (processCell true stC10 cellC10).wire_map = stC10.wire_map ∧
    (processCell true stC10 cellC10).new_conns = stC10.new_conns ∧
    (processCell true stC10 cellC10).miter.conns = stC10.miter.conns ∧
    (∃ c1 ∈ (processCell true stC10 cellC10).miter.cells,
      c1.name = cellC10.name ∧ c1.ctype = cellC10.ctype) ∧
    (∃ cb ∈ (processCell true stC10 cellC10).miter.cells,
      cb.name = label_b cellC10.name ∧ cb.ctype = cellC10.ctype) ∧
    (∀ c2 ∈ (processCell true stC10 cellC10).miter.cells,
      (∃ c ∈ stC10.miter.cells, c2.name = c.name ∧ c2.ctype = c.ctype) ∨
      (c2.name = label_b cellC10.name ∧ c2.ctype = cellC10.ctype) ∨
      (strIsAuto c2.name = true ∧ c2.ctype = "$anyseq")) ∧
    (∀ ps ∈ cellC10.conns, ∃ ta tb,
      SpecRel (processCell true stC10 cellC10).miter.cells stC10.wire_map ps.2 ta tb ∧
      (∀ c2 ∈ (processCell true stC10 cellC10).miter.cells,
        c2.name = cellC10.name → sigBitsC (getPort c2 ps.1) = ta) ∧
      (∀ c2 ∈ (processCell true stC10 cellC10).miter.cells,
        c2.name = label_b cellC10.name → sigBitsC (getPort c2 ps.1) = tb)) :=
  constrain_undef_copies_eqx stC10 cellC10 (Or.inl rfl)
    (List.mem_singleton.mpr rfl) (by decide) (by decide) (by decide) (by decide)
